import Mathlib

/-!
# Exchange-rate service: validator, cache store, rate provider and rate resolver

A shallow embedding of the Go packages `internal/utils`, `internal/domain`,
`internal/repository` and `internal/service`, followed by theorems about them.

Modelling conventions
* An instant (`time.Time`) is an integer, the number of nanoseconds since the Unix
  epoch, and a `time.Duration` is an integer number of nanoseconds;
  the process location is UTC, so calendar fields are those of the UTC day.
* Every clock reading (`time.Now()`) made during one call of an operation sees
  the instant `now` that is passed to the operation.
* `float64` values are exact rationals; the embedding uses them only through
  comparison with zero, multiplication and copying.
* Go strings are Lean strings, read through their UTF-8 encoding where the code
  counts or cuts bytes (`len`, `pair[3:]`); in the date and currency grammar every
  admitted character is one byte, so byte and character positions coincide there.
* A Go `map[string]T` held in a value is an association list with distinct keys;
  the store's own map is a partial function on keys.
* The effects of the resolver on its two collaborators (cache store and rate
  provider) are recorded, in order, in a trace carried next to the cache.
-/

namespace ExchangeRateService

/-! ## Time (package `time`, as far as the sources use it) -/

/-- The constant `time.Second`. -/
def Second : Int := 1000000000

/-- The constant `time.Hour`. -/
def Hour : Int := 3600 * Second

/-- Twenty-four hours, the length of every UTC calendar day. -/
def Day : Int := 24 * Hour

/-- The method `t.After(u)`. -/
def After (t u : Int) : Bool := decide (u < t)

/-- The method `t.Before(u)`. -/
def Before (t u : Int) : Bool := decide (t < u)

/-- The method `t.Add(d)`. -/
def Add (t : Int) (d : Int) : Int := t + d

/-- The call `t.AddDate(0, 0, days)` on a UTC time: the same clock reading
`days` calendar days later. -/
def AddDate (t : Int) (days : Int) : Int := t + days * Day

/-- The call `time.Unix(sec, 0)`. -/
def Unix (sec : Int) : Int := sec * Second

/-- Gregorian leap years. -/
def isLeap (year : Int) : Bool :=
  year % 4 == 0 && (year % 100 != 0 || year % 400 == 0)

/-- One in a leap year, zero otherwise. -/
def leapDay (year : Int) : Int := if isLeap year then 1 else 0

/-- Length of a month when February has `28 + l` days. -/
def monthLen (l month : Int) : Int :=
  if month = 2 then 28 + l
  else if month = 4 ∨ month = 6 ∨ month = 9 ∨ month = 11 then 30
  else 31

/-- The function `daysIn(month, year)` of package `time`. -/
def daysIn (month year : Int) : Int := monthLen (leapDay year) month

/-- The table `daysBefore`: days of a common year before the first of `month`. -/
def daysBefore (month : Int) : Int :=
  if month ≤ 1 then 0 else if month = 2 then 31 else if month = 3 then 59
  else if month = 4 then 90 else if month = 5 then 120 else if month = 6 then 151
  else if month = 7 then 181 else if month = 8 then 212 else if month = 9 then 243
  else if month = 10 then 273 else if month = 11 then 304 else 334

/-- Days from 0001-01-01 to the first of January of `year`. -/
def daysBeforeYear (year : Int) : Int :=
  365 * (year - 1) + (year - 1) / 4 - (year - 1) / 100 + (year - 1) / 400

/-- Days from 0001-01-01 to 1970-01-01. -/
def unixToAbsoluteDays : Int := 719162

/-- Day number (days since 1970-01-01) of a civil date, linear in `day` as in
`time.Date`, which normalises a day beyond the end of the month by carrying. -/
def daysSinceEpoch (year month day : Int) : Int :=
  daysBeforeYear year + daysBefore month + (if 3 ≤ month then leapDay year else 0)
    + (day - 1) - unixToAbsoluteDays

/-- Year and zero-based day of the year of a day counted from 0001-01-01, by
400-, 100-, 4- and 1-year cycles. -/
def yearOfDay (a : Int) : Int × Int :=
  let n400 := a / 146097
  let r := a % 146097
  let n100 := min 3 (r / 36524)
  let r2 := r - 36524 * n100
  let n4 := r2 / 1461
  let r3 := r2 % 1461
  let n1 := min 3 (r3 / 365)
  (400 * n400 + 100 * n100 + 4 * n4 + n1 + 1, r3 - 365 * n1)

/-- Month and day of the month of a zero-based day of the year, when February
has `28 + l` days. -/
def monthOfYday (l yday : Int) : Int × Int :=
  let doy := if yday < 59 + l then yday + 306 else yday - (59 + l)
  let mp := (5 * doy + 2) / 153
  let month := if mp < 10 then mp + 3 else mp - 9
  (month, doy - (153 * mp + 2) / 5 + 1)

/-- Civil date (year, month, day) of a day number: the method `t.Date()`. -/
def civilOfDays (z : Int) : Int × Int × Int :=
  let yd := yearOfDay (z + unixToAbsoluteDays)
  let md := monthOfYday (leapDay yd.1) yd.2
  (yd.1, md.1, md.2)

/-- The call `time.Date(year, month, day, 0, 0, 0, 0, time.UTC)`. -/
def Date (year month day : Int) : Int := daysSinceEpoch year month day * Day

/-- The `k` low-order decimal digits of `n`, most significant first. -/
def lastDigits : Nat → Nat → List Char
  | 0, _ => []
  | k + 1, n => lastDigits k (n / 10) ++ [Nat.digitChar (n % 10)]

/-- The function `appendInt` of package `time`: decimal digits, zero-padded to
`width`, after a minus sign for a negative number. -/
def appendInt (x : Int) (width : Nat) : List Char :=
  (if x < 0 then [Char.ofNat 45] else []) ++
    (if x.natAbs < 10 ^ width then lastDigits width x.natAbs else Nat.toDigits 10 x.natAbs)

/-- The call `t.Format("2006-01-02")`. -/
def Format (t : Int) : String :=
  let c := civilOfDays (t / Day)
  String.mk (appendInt c.1 4 ++ [Char.ofNat 45] ++ appendInt c.2.1 2 ++ [Char.ofNat 45]
    ++ appendInt c.2.2 2)

/-- The byte test `'0' <= c && c <= '9'`. -/
def isDigit (c : Char) : Bool := decide (48 ≤ c.toNat ∧ c.toNat ≤ 57)

/-- Value of a decimal digit. -/
def digitVal (c : Char) : Int := (c.toNat : Int) - 48

/-- The call `time.Parse("2006-01-02", value)`; `none` stands for a parse error.
The layout asks for four digits, a hyphen, two digits, a hyphen, two digits and
nothing else; the month must lie in 1..12 and the day in the month. -/
def Parse (value : String) : Option Int :=
  match value.data with
  | [y1, y2, y3, y4, s1, m1, m2, s2, d1, d2] =>
    if [y1, y2, y3, y4, m1, m2, d1, d2].all isDigit && s1 == Char.ofNat 45
        && s2 == Char.ofNat 45 then
      let year := ((digitVal y1 * 10 + digitVal y2) * 10 + digitVal y3) * 10 + digitVal y4
      let month := digitVal m1 * 10 + digitVal m2
      let day := digitVal d1 * 10 + digitVal d2
      if month < 1 ∨ 12 < month then none
      else if day < 1 ∨ daysIn month year < day then none
      else some (Date year month day)
    else none
  | _ => none

/-! ## Package `utils`: validator -/

/-- The map `domain.SupportedCurrencies`. -/
def SupportedCurrencies : List (String × Bool) :=
  [("USD", true), ("INR", true), ("EUR", true), ("JPY", true), ("GBP", true)]

/-- Function `utils.IsValidCurrency`: the map lookup, `false` for an absent key. -/
def IsValidCurrency (currency : String) : Bool :=
  (SupportedCurrencies.lookup currency).getD false

/-- Function `utils.ValidateDate`, reading the clock as `now`. -/
def ValidateDate (now : Int) (dateStr : String) : Except String Unit :=
  if dateStr = "" then .error "date cannot be empty"
  else
    match Parse dateStr with
    | none => .error "invalid date format, expected YYYY-MM-DD"
    | some date =>
      let maxPastDate := AddDate now (-90)
      if After date now then .error "date cannot be in the future"
      else if Before date maxPastDate then
        .error "date cannot be more than 90 days in the past"
      else .ok ()

/-- The loop of `utils.GetDateRange`: while `current` is not after `stop`,
append its formatted date and move one day on. -/
def dateRangeLoop (stop : Int) (current : Int) (dates : List String) : List String :=
  if _h : After current stop then dates
  else dateRangeLoop stop (AddDate current 1) (dates ++ [Format current])
termination_by (stop - current + 1).toNat
decreasing_by
  have h2 : ¬ (stop < current) := by simpa [After] using _h
  simp only [AddDate, Day, Hour, Second]
  omega

/-- Function `utils.GetDateRange`. -/
def GetDateRange (startDate endDate : String) : Except String (List String) :=
  match Parse startDate with
  | none => .error "invalid start date format"
  | some start =>
    match Parse endDate with
    | none => .error "invalid end date format"
    | some stop =>
      if After start stop then .error "start date cannot be after end date"
      else .ok (dateRangeLoop stop start [])

/-! ## Package `domain` -/

/-- A Go `float64`. -/
abbrev Float64 := ℚ

/-- The assignment `m[key] = value` on a Go map. -/
def mapSet {α : Type} (m : List (String × α)) (key : String) (value : α) : List (String × α) :=
  if m.any (fun e => e.1 == key) then m.map (fun e => if e.1 == key then (key, value) else e)
  else m ++ [(key, value)]

/-- Struct `domain.ExchangeRate`. -/
structure ExchangeRate where
  FromCurrency : String
  ToCurrency : String
  Rate : Float64
  Timestamp : Int
  Date : String
deriving DecidableEq

/-- Struct `domain.ConversionRequest`; an absent date is the empty string. -/
structure ConversionRequest where
  From : String
  To : String
  Amount : Float64
  Date : String
deriving DecidableEq

/-- Struct `domain.ConversionResponse`. -/
structure ConversionResponse where
  Amount : Float64
  FromCurrency : String
  ToCurrency : String
  Rate : Float64
  Date : String
  Timestamp : Int
deriving DecidableEq

/-- Struct `domain.LatestRatesResponse`. -/
structure LatestRatesResponse where
  BaseCurrency : String
  Rates : List (String × Float64)
  Timestamp : Int
  Date : String
deriving DecidableEq

/-- Struct `domain.HistoricalRatesResponse`. -/
structure HistoricalRatesResponse where
  FromCurrency : String
  ToCurrency : String
  Rates : List (String × ExchangeRate)
  StartDate : String
  EndDate : String
deriving DecidableEq

/-- Interface `domain.ExchangeRepository`: what each method answers during one
call of a resolver operation. -/
structure ExchangeRepository where
  GetLatestRate : String → String → Except String ExchangeRate
  GetHistoricalRate : String → String → String → Except String ExchangeRate
  GetAllLatestRates : String → Except String (List (String × Float64))

/-! ## Package `repository`: cache store -/

/-- The dynamic values the resolver hands to `Set` as `interface{}`: a
`*domain.ExchangeRate` or a `map[string]float64`. -/
inductive CacheValue where
  | exchangeRate (rate : ExchangeRate)
  | rates (rates : List (String × Float64))
deriving DecidableEq

/-- Struct `repository.CacheItem`. -/
structure CacheItem where
  Value : CacheValue
  Expiration : Int
deriving DecidableEq

/-- Struct `repository.CacheRepository`: the map `items`. -/
structure CacheRepository where
  items : String → Option CacheItem

/-- Function `repository.NewCacheRepository`: an empty map. -/
def NewCacheRepository : CacheRepository := ⟨fun _ => none⟩

/-- Method `CacheRepository.Set`, reading the clock as `now`. -/
def CacheRepository.Set (c : CacheRepository) (now : Int) (key : String) (value : CacheValue)
    (expiration : Int) : CacheRepository :=
  ⟨fun k => if k = key then some ⟨value, Add now expiration⟩ else c.items k⟩

/-- Method `CacheRepository.Delete`. -/
def CacheRepository.Delete (c : CacheRepository) (key : String) : CacheRepository :=
  ⟨fun k => if k = key then none else c.items k⟩

/-- Method `CacheRepository.Clear`. -/
def CacheRepository.Clear (_c : CacheRepository) : CacheRepository := ⟨fun _ => none⟩

/-- Method `CacheRepository.Get`, reading the clock as `now`. The argument
`unmarshal` is `json.Marshal(item.Value)` followed by `json.Unmarshal` into the
destination the caller passes. -/
def CacheRepository.Get {α : Type} (c : CacheRepository) (unmarshal : CacheValue → Except String α)
    (now : Int) (key : String) : Except String α × CacheRepository :=
  match c.items key with
  | none => (.error "key not found", c)
  | some item =>
    if After now item.Expiration then (.error "key expired", c.Delete key)
    else (unmarshal item.Value, c)

/-- One pass of the sweep in `CacheRepository.cleanup`, at instant `now`. -/
def CacheRepository.cleanup (c : CacheRepository) (now : Int) : CacheRepository :=
  ⟨fun k => match c.items k with
    | none => none
    | some item => if After now item.Expiration then none else some item⟩

/-- Whether `Time.MarshalJSON` accepts the instant: its year has four digits. -/
def marshalsTime (t : Int) : Bool :=
  decide (0 ≤ (civilOfDays (t / Day)).1 ∧ (civilOfDays (t / Day)).1 ≤ 9999)

/-- The key folding of `encoding/json` for struct field lookup: ASCII letters to
upper case, and the two other runes that fold to an ASCII letter. -/
def foldName (s : String) : String :=
  String.mk (s.data.map fun c =>
    if c.toNat = 383 then Char.ofNat 83 else if c.toNat = 8490 then Char.ofNat 75 else c.toUpper)

/-- The round trip `json.Marshal` then `json.Unmarshal` into a zero
`domain.ExchangeRate`. A stored rate comes back unchanged unless its timestamp
cannot be marshalled. A stored map is a JSON object of numbers: a key matching a
string or time field is a type error, a key matching `rate` sets the rate, any
other key is ignored. -/
def unmarshalExchangeRate : CacheValue → Except String ExchangeRate
  | .exchangeRate rate =>
    if marshalsTime rate.Timestamp then .ok rate
    else .error "Time.MarshalJSON: year outside of range [0,9999]"
  | .rates rates =>
    if rates.any (fun e => foldName e.1 ∈ ["FROM_CURRENCY", "TO_CURRENCY", "TIMESTAMP", "DATE"])
    then .error "json: cannot unmarshal number into Go struct field"
    else .ok {
      FromCurrency := ""
      ToCurrency := ""
      Rate := (((rates.filter (fun e => foldName e.1 == "RATE")).getLast?).map (·.2)).getD 0
      Timestamp := Date 1 1 1
      Date := "" }

/-- The round trip `json.Marshal` then `json.Unmarshal` into a nil
`map[string]float64`. A stored map comes back unchanged; a stored rate is a JSON
object with string members, a type error. -/
def unmarshalRates : CacheValue → Except String (List (String × Float64))
  | .rates rates => .ok rates
  | .exchangeRate rate =>
    if marshalsTime rate.Timestamp then
      .error "json: cannot unmarshal string into Go value of type float64"
    else .error "Time.MarshalJSON: year outside of range [0,9999]"

/-! ## Package `repository`: rate provider -/

/-- Struct `repository.APIError`. -/
structure APIError where
  Code : Int
  Info : String
deriving DecidableEq

/-- Struct `repository.ExchangeHostResponse`, as decoded from the body. -/
structure ExchangeHostResponse where
  Success : Bool
  Timestamp : Int
  Source : String
  Quotes : List (String × Float64)
  Error : Option APIError
deriving DecidableEq

/-- Struct `repository.HistoricalResponse`, as decoded from the body. -/
structure HistoricalResponse where
  Success : Bool
  Historical : Bool
  Date : String
  Timestamp : Int
  Source : String
  Quotes : List (String × Float64)
  Error : Option APIError
deriving DecidableEq

/-- How one HTTP exchange of a provider method ends, in the order in which the
method tests for failure. A received response carries its status code. -/
inductive HTTPResult (α : Type) where
  | requestError
  | doError
  | readError (status : Nat)
  | unmarshalError (status : Nat)
  | response (status : Nat) (apiResp : α)

/-- The upstream service: the outcome of a request to `/live` for a source and
a currency list, and to `/historical` for a date, a source and a currency list. -/
structure Upstream where
  live : String → String → HTTPResult ExchangeHostResponse
  historical : String → String → String → HTTPResult HistoricalResponse

/-- Method `getMockRates`. -/
def getMockRates (baseCurrency : String) : List (String × Float64) :=
  let mockRates : List (String × List (String × Float64)) := [
    ("USD", [("INR", 83.25), ("EUR", 0.85), ("JPY", 110.50), ("GBP", 0.73)]),
    ("EUR", [("USD", 1.18), ("INR", 98.12), ("JPY", 130.25), ("GBP", 0.86)]),
    ("GBP", [("USD", 1.37), ("INR", 114.05), ("EUR", 1.16), ("JPY", 151.38)]),
    ("INR", [("USD", 0.012), ("EUR", 0.010), ("JPY", 1.33), ("GBP", 0.0088)]),
    ("JPY", [("USD", 0.0090), ("EUR", 0.0077), ("INR", 0.75), ("GBP", 0.0066)])]
  match mockRates.lookup baseCurrency with
  | some rates => rates
  | none => []

/-- Method `getMockRate`, reading the clock as `now`. -/
def getMockRate (now : Int) (from_ to_ : String) : ExchangeRate :=
  let baseRates := getMockRates from_
  let rate := match baseRates.lookup to_ with
    | some rate => rate
    | none => 1.0
  { FromCurrency := from_, ToCurrency := to_, Rate := rate, Timestamp := now, Date := Format now }

/-- Method `getMockHistoricalRate`, reading the clock as `now`. -/
def getMockHistoricalRate (now : Int) (from_ to_ date : String) : ExchangeRate :=
  let baseRates := getMockRates from_
  let rate := match baseRates.lookup to_ with
    | some rate => rate
    | none => 1.0
  { FromCurrency := from_, ToCurrency := to_, Rate := rate, Timestamp := now, Date := date }

/-- Method `ExchangeAPIRepository.GetLatestRate` on the outcome `res` of its
HTTP exchange. -/
def GetLatestRate (res : HTTPResult ExchangeHostResponse) (now : Int) (from_ to_ : String) :
    Except String ExchangeRate :=
  match res with
  | .requestError => .ok (getMockRate now from_ to_)
  | .doError => .ok (getMockRate now from_ to_)
  | .readError _ => .ok (getMockRate now from_ to_)
  | .unmarshalError _ => .ok (getMockRate now from_ to_)
  | .response _ apiResp =>
    if !apiResp.Success || apiResp.Error.isSome then .ok (getMockRate now from_ to_)
    else
      let quoteKey := from_ ++ to_
      match apiResp.Quotes.lookup quoteKey with
      | none => .ok (getMockRate now from_ to_)
      | some rate =>
        .ok { FromCurrency := from_, ToCurrency := to_, Rate := rate,
              Timestamp := Unix apiResp.Timestamp, Date := Format (Unix apiResp.Timestamp) }

/-- Method `ExchangeAPIRepository.GetHistoricalRate` on the outcome `res` of its
HTTP exchange. -/
def GetHistoricalRate (res : HTTPResult HistoricalResponse) (now : Int)
    (from_ to_ date : String) : Except String ExchangeRate :=
  match res with
  | .requestError => .ok (getMockHistoricalRate now from_ to_ date)
  | .doError => .ok (getMockHistoricalRate now from_ to_ date)
  | .readError _ => .ok (getMockHistoricalRate now from_ to_ date)
  | .unmarshalError _ => .ok (getMockHistoricalRate now from_ to_ date)
  | .response _ apiResp =>
    if !apiResp.Success || apiResp.Error.isSome then
      .ok (getMockHistoricalRate now from_ to_ date)
    else
      let quoteKey := from_ ++ to_
      match apiResp.Quotes.lookup quoteKey with
      | none => .ok (getMockHistoricalRate now from_ to_ date)
      | some rate =>
        .ok { FromCurrency := from_, ToCurrency := to_, Rate := rate,
              Timestamp := Unix apiResp.Timestamp, Date := date }

/-- The builtin `len` on a string: the number of bytes of its UTF-8 encoding. -/
def len (s : String) : Nat := s.utf8ByteSize

/-- The slice `s[n:]` of a string with at least `n` bytes, on the characters of
`s`: the characters that lie within the first `n` bytes are dropped. When byte `n`
falls inside a character, the slice starts with the trailing bytes of that
character, which are not valid UTF-8 and which no Lean string holds; each of them
is written U+FFFD, the way Go decodes a stray byte. -/
def sliceFrom : List Char → Nat → List Char
  | [], _ => []
  | c :: cs, n =>
    if n = 0 then c :: cs
    else if c.utf8Size ≤ n then sliceFrom cs (n - c.utf8Size)
    else List.replicate (c.utf8Size - n) (Char.ofNat 0xFFFD) ++ cs

/-- Method `ExchangeAPIRepository.GetAllLatestRates` on the outcome `res` of its
HTTP exchange. -/
def GetAllLatestRates (res : HTTPResult ExchangeHostResponse) (baseCurrency : String) :
    Except String (List (String × Float64)) :=
  match res with
  | .requestError => .ok (getMockRates baseCurrency)
  | .doError => .ok (getMockRates baseCurrency)
  | .readError _ => .ok (getMockRates baseCurrency)
  | .unmarshalError _ => .ok (getMockRates baseCurrency)
  | .response _ apiResp =>
    if !apiResp.Success || apiResp.Error.isSome then .ok (getMockRates baseCurrency)
    else
      .ok (apiResp.Quotes.foldl
        (fun rates e =>
          if len e.1 ≥ 6 then mapSet rates (String.mk (sliceFrom e.1.data 3)) e.2
          else rates) [])

/-- The currency list `GetAllLatestRates` sends: the supported codes other than
the base, joined by commas. -/
def otherCurrencies (baseCurrency : String) : String :=
  ",".intercalate ((SupportedCurrencies.map (·.1)).filter (· != baseCurrency))

/-- The provider `repository.NewExchangeAPIRepository(...)` as seen through the
interface, against the upstream `up` and with the clock at `now`. -/
def NewExchangeAPIRepository (up : Upstream) (now : Int) : ExchangeRepository where
  GetLatestRate := fun from_ to_ => GetLatestRate (up.live from_ to_) now from_ to_
  GetHistoricalRate := fun from_ to_ date =>
    GetHistoricalRate (up.historical date from_ to_) now from_ to_ date
  GetAllLatestRates := fun base => GetAllLatestRates (up.live base (otherCurrencies base)) base

/-! ## Package `service`: rate resolver and background refresh -/

/-- One call made by the resolver on a collaborator. -/
inductive Event where
  | cacheGet (key : String)
  | cacheSet (key : String) (expiration : Int)
  | apiLatest (from_ to_ : String)
  | apiHistorical (from_ to_ date : String)
  | apiAllLatest (baseCurrency : String)
deriving DecidableEq

/-- What an `ExchangeService` acts on: the cache store behind `cacheRepo`, and
the calls made so far on `cacheRepo` and `apiRepo`. -/
structure World where
  cache : CacheRepository
  trace : List Event

/-- The call `s.cacheRepo.Get(key, &dest)`. -/
def cacheGet {α : Type} (unmarshal : CacheValue → Except String α) (now : Int) (key : String)
    (w : World) : Except String α × World :=
  ((w.cache.Get unmarshal now key).1,
    { cache := (w.cache.Get unmarshal now key).2, trace := w.trace ++ [Event.cacheGet key] })

/-- The call `s.cacheRepo.Set(key, value, expiration)`. -/
def cacheSet (now : Int) (key : String) (value : CacheValue) (expiration : Int)
    (w : World) : World :=
  { cache := w.cache.Set now key value expiration,
    trace := w.trace ++ [Event.cacheSet key expiration] }

/-- Records one provider call in the trace. -/
def called (e : Event) (w : World) : World := { w with trace := w.trace ++ [e] }

/-- Method `ExchangeService.getLatestRate`. -/
def getLatestRate (api : ExchangeRepository) (now : Int) (from_ to_ : String) (w : World) :
    Except String ExchangeRate × World :=
  let cacheKey := "rate_" ++ from_ ++ "_" ++ to_ ++ "_latest"
  match cacheGet unmarshalExchangeRate now cacheKey w with
  | (.ok cachedRate, w1) => (.ok cachedRate, w1)
  | (.error _, w1) =>
    match api.GetLatestRate from_ to_ with
    | .error err => (.error err, called (.apiLatest from_ to_) w1)
    | .ok rate =>
      (.ok rate, cacheSet now cacheKey (.exchangeRate rate) Hour (called (.apiLatest from_ to_) w1))

/-- Method `ExchangeService.getHistoricalRate`. -/
def getHistoricalRate (api : ExchangeRepository) (now : Int) (from_ to_ date : String)
    (w : World) : Except String ExchangeRate × World :=
  let cacheKey := "rate_" ++ from_ ++ "_" ++ to_ ++ "_" ++ date
  match cacheGet unmarshalExchangeRate now cacheKey w with
  | (.ok cachedRate, w1) => (.ok cachedRate, w1)
  | (.error _, w1) =>
    match api.GetHistoricalRate from_ to_ date with
    | .error err => (.error err, called (.apiHistorical from_ to_ date) w1)
    | .ok rate =>
      (.ok rate, cacheSet now cacheKey (.exchangeRate rate) (24 * Hour)
        (called (.apiHistorical from_ to_ date) w1))

/-- Method `ExchangeService.ConvertCurrency`. -/
def ConvertCurrency (api : ExchangeRepository) (now : Int) (req : ConversionRequest)
    (w : World) : Except String ConversionResponse × World :=
  if !IsValidCurrency req.From || !IsValidCurrency req.To then
    (.error ("unsupported currency pair: " ++ req.From ++ " to " ++ req.To), w)
  else
    let amount := if req.Amount = 0 then 1 else req.Amount
    let resolved : Except String ExchangeRate × World :=
      if req.Date ≠ "" then
        match ValidateDate now req.Date with
        | .error err => (.error err, w)
        | .ok _ => getHistoricalRate api now req.From req.To req.Date w
      else getLatestRate api now req.From req.To w
    match resolved with
    | (.error err, w1) => (.error err, w1)
    | (.ok rate, w1) =>
      (.ok {
        Amount := amount * rate.Rate
        FromCurrency := req.From
        ToCurrency := req.To
        Rate := rate.Rate
        Date := rate.Date
        Timestamp := rate.Timestamp }, w1)

/-- Method `ExchangeService.GetLatestRates`. -/
def GetLatestRates (api : ExchangeRepository) (now : Int) (baseCurrency : String) (w : World) :
    Except String LatestRatesResponse × World :=
  if !IsValidCurrency baseCurrency then
    (.error ("unsupported base currency: " ++ baseCurrency), w)
  else
    let cacheKey := "latest_rates_" ++ baseCurrency
    match cacheGet unmarshalRates now cacheKey w with
    | (.ok cachedRates, w1) =>
      (.ok { BaseCurrency := baseCurrency, Rates := cachedRates, Timestamp := now,
             Date := Format now }, w1)
    | (.error _, w1) =>
      match api.GetAllLatestRates baseCurrency with
      | .error err => (.error err, called (.apiAllLatest baseCurrency) w1)
      | .ok rates =>
        (.ok { BaseCurrency := baseCurrency, Rates := rates, Timestamp := now,
               Date := Format now },
          cacheSet now cacheKey (.rates rates) Hour (called (.apiAllLatest baseCurrency) w1))

/-- The loop over the dates in `ExchangeService.GetHistoricalRates`: a date whose
resolution fails is logged and skipped. -/
def historicalLoop (api : ExchangeRepository) (now : Int) (from_ to_ : String) :
    List String → List (String × ExchangeRate) → World → List (String × ExchangeRate) × World
  | [], rates, w => (rates, w)
  | date :: dates, rates, w =>
    match getHistoricalRate api now from_ to_ date w with
    | (.error _, w1) => historicalLoop api now from_ to_ dates rates w1
    | (.ok rate, w1) => historicalLoop api now from_ to_ dates (mapSet rates date rate) w1

/-- Method `ExchangeService.GetHistoricalRates`. -/
def GetHistoricalRates (api : ExchangeRepository) (now : Int)
    (from_ to_ startDate endDate : String) (w : World) :
    Except String HistoricalRatesResponse × World :=
  if !IsValidCurrency from_ || !IsValidCurrency to_ then
    (.error ("unsupported currency pair: " ++ from_ ++ " to " ++ to_), w)
  else
    match ValidateDate now startDate with
    | .error err => (.error ("invalid start date: " ++ err), w)
    | .ok _ =>
      match ValidateDate now endDate with
      | .error err => (.error ("invalid end date: " ++ err), w)
      | .ok _ =>
        match GetDateRange startDate endDate with
        | .error err => (.error err, w)
        | .ok dates =>
          let (rates, w1) := historicalLoop api now from_ to_ dates [] w
          (.ok { FromCurrency := from_, ToCurrency := to_, Rates := rates,
                 StartDate := startDate, EndDate := endDate }, w1)

/-- The loop of `ExchangeService.updateAllRates` over the base currencies: a
base whose provider call fails is logged and skipped. -/
def updateLoop (api : ExchangeRepository) (now : Int) : List String → World → World
  | [], w => w
  | baseCurrency :: currencies, w =>
    match api.GetAllLatestRates baseCurrency with
    | .error _ => updateLoop api now currencies (called (.apiAllLatest baseCurrency) w)
    | .ok rates =>
      updateLoop api now currencies
        (cacheSet now ("latest_rates_" ++ baseCurrency) (.rates rates) Hour
          (called (.apiAllLatest baseCurrency) w))

/-- Method `ExchangeService.updateAllRates`. -/
def updateAllRates (api : ExchangeRepository) (now : Int) (w : World) : World :=
  updateLoop api now ["USD", "EUR", "GBP", "INR", "JPY"] w

/-! ## Auxiliary notions used to state the properties -/

/-- Whether a result is an error. -/
def isError {ε α : Type} : Except ε α → Bool
  | .error _ => true
  | .ok _ => false

/-- The start of the UTC calendar day of an instant. -/
def dayStart (now : Int) : Int := now / Day * Day

/-- The events that are provider calls. -/
def isApiCall : Event → Bool
  | .apiLatest _ _ => true
  | .apiHistorical _ _ _ => true
  | .apiAllLatest _ => true
  | _ => false

/-- A sequence of `GetLatestRates(baseCurrency)` calls, the i-th against the
provider state and at the instant given by the i-th list entry. -/
def latestRatesCalls (baseCurrency : String) :
    List (ExchangeRepository × Int) → World → List (Except String LatestRatesResponse) × World
  | [], w => ([], w)
  | (api, now) :: rest, w =>
    let r := GetLatestRates api now baseCurrency w
    let rs := latestRatesCalls baseCurrency rest r.2
    (r.1 :: rs.1, rs.2)

/-- The round trip `json.Marshal` then `json.Unmarshal` into a destination of the
stored value's own type. -/
def jsonRoundTrip : CacheValue → Except String CacheValue
  | .exchangeRate rate => (unmarshalExchangeRate (.exchangeRate rate)).map .exchangeRate
  | .rates rates => (unmarshalRates (.rates rates)).map .rates

/-- The provider of the unit test: every rate lookup answers `rate`, every
request for all rates answers `rates`. -/
def mockAPI (rate : ExchangeRate) (rates : List (String × Float64)) : ExchangeRepository where
  GetLatestRate := fun _ _ => .ok rate
  GetHistoricalRate := fun _ _ _ => .ok rate
  GetAllLatestRates := fun _ => .ok rates

/-- The failures of the exchange that `GetLatestRate` tests for: no response, an
unreadable or malformed body, a payload without success or with an error object,
or a payload without the quote `from_ ++ to_`. -/
def exchangeFailed (res : HTTPResult ExchangeHostResponse) (from_ to_ : String) : Bool :=
  match res with
  | .requestError => true
  | .doError => true
  | .readError _ => true
  | .unmarshalError _ => true
  | .response _ apiResp =>
    !apiResp.Success || apiResp.Error.isSome || (apiResp.Quotes.lookup (from_ ++ to_)).isNone

/-- The quote for `from_ ++ to_` in a received payload, if any. -/
def quoted (res : HTTPResult ExchangeHostResponse) (from_ to_ : String) : Option Float64 :=
  match res with
  | .response _ apiResp => apiResp.Quotes.lookup (from_ ++ to_)
  | _ => none

/-- Whether the exchange of `GetAllLatestRates` gave no usable payload: no
response, an unreadable or malformed body, or a payload without success or with
an error object. -/
def payloadFailed (res : HTTPResult ExchangeHostResponse) : Bool :=
  match res with
  | .requestError => true
  | .doError => true
  | .readError _ => true
  | .unmarshalError _ => true
  | .response _ apiResp => !apiResp.Success || apiResp.Error.isSome

/-- The events of one step of the refresh for a base: the provider call, then the
cache write when the call succeeded. -/
def refreshEvents (api : ExchangeRepository) (baseCurrency : String) : List Event :=
  match api.GetAllLatestRates baseCurrency with
  | .error _ => [Event.apiAllLatest baseCurrency]
  | .ok _ => [Event.apiAllLatest baseCurrency,
      Event.cacheSet ("latest_rates_" ++ baseCurrency) Hour]

/-- The series the specification describes for a list of days, against the state
in which the call starts: one entry per day whose single-rate resolution succeeds,
holding the resolved rate, in the order of the days. -/
def resolvedRates (api : ExchangeRepository) (now : Int) (from_ to_ : String) (w : World)
    (dates : List String) : List (String × ExchangeRate) :=
  dates.filterMap fun date =>
    match (getHistoricalRate api now from_ to_ date w).1 with
    | .ok rate => some (date, rate)
    | .error _ => none

/-- The events that are cache reads. -/
def isCacheGet : Event → Bool
  | .cacheGet _ => true
  | _ => false

/-- The provider that fails on one date and answers `rate` on every other. -/
def failingOn (date : String) (rate : ExchangeRate) : ExchangeRepository where
  GetLatestRate := fun _ _ => .ok rate
  GetHistoricalRate := fun _ _ d => if d = date then .error "unavailable" else .ok rate
  GetAllLatestRates := fun _ => .ok []

/-- Whether byte `n` of a string starts one of its characters or is its end, so
that the slice `s[n:]` is again a string of whole characters. -/
def startsChar : List Char → Nat → Bool
  | [], n => n = 0
  | c :: cs, n =>
    if n = 0 then true
    else if c.utf8Size ≤ n then startsChar cs (n - c.utf8Size)
    else false

/-! ## Calendar arithmetic -/

/-- The leap day of a year, by the divisibility rule. -/
theorem leapDay_cases (y : Int) :
    (leapDay y = 1 ∧ y % 4 = 0 ∧ (y % 100 ≠ 0 ∨ y % 400 = 0)) ∨
    (leapDay y = 0 ∧ ¬ (y % 4 = 0 ∧ (y % 100 ≠ 0 ∨ y % 400 = 0))) := by
  unfold leapDay
  by_cases h : isLeap y = true
  · left
    rw [if_pos h]
    simp only [isLeap, Bool.and_eq_true, Bool.or_eq_true, beq_iff_eq, bne_iff_ne] at h
    exact ⟨rfl, h⟩
  · right
    rw [if_neg h]
    simp only [isLeap, Bool.and_eq_true, Bool.or_eq_true, beq_iff_eq, bne_iff_ne] at h
    exact ⟨rfl, h⟩

/-- The leap day is zero or one. -/
theorem leapDay_01 (y : Int) : leapDay y = 0 ∨ leapDay y = 1 := by
  rcases leapDay_cases y with h | h
  · exact Or.inr h.1
  · exact Or.inl h.1

/-- The cycle decomposition of `yearOfDay`, step by step: the year and day of the
year it finds add up to the day, and the day of the year lies within the year. -/
theorem yearOfDay_core (a q r n100 n4 r3 n1 y yd : Int)
    (hq : q = a / 146097) (hr : r = a % 146097)
    (h100 : n100 = min 3 (r / 36524))
    (h4 : n4 = (r - 36524 * n100) / 1461) (h3 : r3 = (r - 36524 * n100) % 1461)
    (h1 : n1 = min 3 (r3 / 365))
    (hy : y = 400 * q + 100 * n100 + 4 * n4 + n1 + 1) (hyd : yd = r3 - 365 * n1) :
    daysBeforeYear y + yd = a ∧ 0 ≤ yd ∧
      (yd < 365 ∨ (yd = 365 ∧ y % 4 = 0 ∧ (y % 100 ≠ 0 ∨ y % 400 = 0))) := by
  unfold daysBeforeYear
  have a1 : n100 = 0 ∨ n100 = 1 ∨ n100 = 2 ∨ n100 = 3 := by omega
  have a2 : n1 = 0 ∨ n1 = 1 ∨ n1 = 2 ∨ n1 = 3 := by omega
  have a3 : 0 ≤ n4 ∧ n4 ≤ 24 := by omega
  rcases a1 with h | h | h | h <;> rcases a2 with h' | h' | h' | h' <;> subst h h' <;> omega

/-- The year and day of the year found by `yearOfDay` add up to the day. -/
theorem yearOfDay_spec (a : Int) :
    daysBeforeYear (yearOfDay a).1 + (yearOfDay a).2 = a ∧ 0 ≤ (yearOfDay a).2 ∧
      (yearOfDay a).2 < 365 + leapDay (yearOfDay a).1 := by
  have h := yearOfDay_core a _ _ _ _ _ _ _ _ rfl rfl rfl rfl rfl rfl
    (rfl : (yearOfDay a).1 = _) (rfl : (yearOfDay a).2 = _)
  refine ⟨h.1, h.2.1, ?_⟩
  rcases leapDay_cases (yearOfDay a).1 with h2 | h2 <;> rcases h.2.2 with h3 | h3 <;> omega

/-- A year has 365 days and its leap day. -/
theorem daysBeforeYear_succ (y : Int) :
    daysBeforeYear (y + 1) = daysBeforeYear y + 365 + leapDay y := by
  unfold daysBeforeYear
  rcases leapDay_cases y with h | h <;> omega

/-- Later years start later. -/
theorem daysBeforeYear_mono {y y2 : Int} (h : y ≤ y2) : daysBeforeYear y ≤ daysBeforeYear y2 := by
  unfold daysBeforeYear; omega

/-- A day lies in one year only. -/
theorem year_unique {y y2 d d2 : Int} (h : daysBeforeYear y + d = daysBeforeYear y2 + d2)
    (hd : 0 ≤ d ∧ d < 365 + leapDay y) (hd2 : 0 ≤ d2 ∧ d2 < 365 + leapDay y2) :
    y = y2 ∧ d = d2 := by
  have key : y = y2 := by
    by_contra hne
    rcases lt_or_gt_of_ne hne with hlt | hgt
    · have := daysBeforeYear_mono (show y + 1 ≤ y2 by omega)
      rw [daysBeforeYear_succ] at this; omega
    · have := daysBeforeYear_mono (show y2 + 1 ≤ y by omega)
      rw [daysBeforeYear_succ] at this; omega
  subst key; exact ⟨rfl, by omega⟩

/-- The year and day of the year of a day given by its year and day of the year. -/
theorem yearOfDay_eq {y d : Int} (hd : 0 ≤ d ∧ d < 365 + leapDay y) :
    yearOfDay (daysBeforeYear y + d) = (y, d) := by
  have h := yearOfDay_spec (daysBeforeYear y + d)
  have := year_unique h.1 ⟨h.2.1, h.2.2⟩ hd
  exact Prod.ext this.1 this.2

/-- The entries of the table `daysBefore`. -/
theorem daysBefore_vals :
    daysBefore 1 = 0 ∧ daysBefore 2 = 31 ∧ daysBefore 3 = 59 ∧ daysBefore 4 = 90 ∧
    daysBefore 5 = 120 ∧ daysBefore 6 = 151 ∧ daysBefore 7 = 181 ∧ daysBefore 8 = 212 ∧
    daysBefore 9 = 243 ∧ daysBefore 10 = 273 ∧ daysBefore 11 = 304 ∧ daysBefore 12 = 334 := by
  decide

/-- The lengths of the twelve months. -/
theorem monthLen_vals (l : Int) :
    monthLen l 1 = 31 ∧ monthLen l 2 = 28 + l ∧ monthLen l 3 = 31 ∧ monthLen l 4 = 30 ∧
    monthLen l 5 = 31 ∧ monthLen l 6 = 30 ∧ monthLen l 7 = 31 ∧ monthLen l 8 = 31 ∧
    monthLen l 9 = 30 ∧ monthLen l 10 = 31 ∧ monthLen l 11 = 30 ∧ monthLen l 12 = 31 := by
  simp [monthLen]

/-- The steps of `monthOfYday`: the month and day it finds are valid and add up to
the day of the year. -/
theorem monthOfYday_core (l yd doy mp m d : Int) (hl : l = 0 ∨ l = 1) (h0 : 0 ≤ yd)
    (h1 : yd < 365 + l)
    (hdoy : doy = if yd < 59 + l then yd + 306 else yd - (59 + l))
    (hmp : mp = (5 * doy + 2) / 153) (hm : m = if mp < 10 then mp + 3 else mp - 9)
    (hd : d = doy - (153 * mp + 2) / 5 + 1) :
    1 ≤ m ∧ m ≤ 12 ∧ 1 ≤ d ∧ d ≤ monthLen l m ∧
    daysBefore m + (if 3 ≤ m then l else 0) + (d - 1) = yd := by
  obtain ⟨b1, b2, b3, b4, b5, b6, b7, b8, b9, b10, b11, b12⟩ := daysBefore_vals
  obtain ⟨c1, c2, c3, c4, c5, c6, c7, c8, c9, c10, c11, c12⟩ := monthLen_vals l
  have hdoy2 : 0 ≤ doy ∧ doy ≤ 365 := by split_ifs at hdoy <;> omega
  have hmp2 : mp = 0 ∨ mp = 1 ∨ mp = 2 ∨ mp = 3 ∨ mp = 4 ∨ mp = 5 ∨ mp = 6 ∨ mp = 7 ∨ mp = 8 ∨
      mp = 9 ∨ mp = 10 ∨ mp = 11 := by omega
  rcases hmp2 with h | h | h | h | h | h | h | h | h | h | h | h <;> subst h <;>
    norm_num at hm <;> subst hm <;>
    simp only [b1, b2, b3, b4, b5, b6, b7, b8, b9, b10, b11, b12,
      c1, c2, c3, c4, c5, c6, c7, c8, c9, c10, c11, c12] <;>
    norm_num <;> split_ifs at hdoy <;> omega

/-- The month and day found by `monthOfYday` are valid and add up to the day of the
year. -/
theorem monthOfYday_spec (l yd : Int) (hl : l = 0 ∨ l = 1) (h0 : 0 ≤ yd) (h1 : yd < 365 + l) :
    1 ≤ (monthOfYday l yd).1 ∧ (monthOfYday l yd).1 ≤ 12 ∧ 1 ≤ (monthOfYday l yd).2 ∧
    (monthOfYday l yd).2 ≤ monthLen l (monthOfYday l yd).1 ∧
    daysBefore (monthOfYday l yd).1 + (if 3 ≤ (monthOfYday l yd).1 then l else 0)
      + ((monthOfYday l yd).2 - 1) = yd :=
  monthOfYday_core l yd _ _ _ _ hl h0 h1 rfl rfl rfl rfl

/-- The month and day of a day of the year given by its month and day. -/
theorem monthOfYday_eq (l m d : Int) (hl : l = 0 ∨ l = 1) (hm : 1 ≤ m ∧ m ≤ 12)
    (hd : 1 ≤ d ∧ d ≤ monthLen l m) :
    monthOfYday l (daysBefore m + (if 3 ≤ m then l else 0) + (d - 1)) = (m, d) ∧
    0 ≤ daysBefore m + (if 3 ≤ m then l else 0) + (d - 1) ∧
    daysBefore m + (if 3 ≤ m then l else 0) + (d - 1) < 365 + l := by
  obtain ⟨b1, b2, b3, b4, b5, b6, b7, b8, b9, b10, b11, b12⟩ := daysBefore_vals
  obtain ⟨c1, c2, c3, c4, c5, c6, c7, c8, c9, c10, c11, c12⟩ := monthLen_vals l
  obtain ⟨hm1, hm2⟩ := hm
  obtain ⟨hd1, hd2⟩ := hd
  have : m = 1 ∨ m = 2 ∨ m = 3 ∨ m = 4 ∨ m = 5 ∨ m = 6 ∨ m = 7 ∨ m = 8 ∨ m = 9 ∨ m = 10 ∨
      m = 11 ∨ m = 12 := by omega
  unfold monthOfYday
  obtain ⟨yd, hyd⟩ : ∃ yd, yd = daysBefore m + (if 3 ≤ m then l else 0) + (d - 1) := ⟨_, rfl⟩
  rw [← hyd]
  obtain ⟨doy, hdoy⟩ : ∃ doy, doy = if yd < 59 + l then yd + 306 else yd - (59 + l) := ⟨_, rfl⟩
  obtain ⟨mp, hmp⟩ : ∃ mp, mp = (5 * doy + 2) / 153 := ⟨_, rfl⟩
  simp only [← hdoy, ← hmp]
  rcases this with h | h | h | h | h | h | h | h | h | h | h | h <;> subst h <;>
    simp only [b1, b2, b3, b4, b5, b6, b7, b8, b9, b10, b11, b12,
      c1, c2, c3, c4, c5, c6, c7, c8, c9, c10, c11, c12] at hd2 hyd <;>
    norm_num at hyd <;>
    (refine ⟨Prod.ext ?_ ?_, by omega, by omega⟩) <;>
    simp only [] <;> split_ifs at hdoy ⊢ <;> omega

/-- Every day number is the day number of its civil date, which is a valid date. -/
theorem civilOfDays_spec (z : Int) :
    daysSinceEpoch (civilOfDays z).1 (civilOfDays z).2.1 (civilOfDays z).2.2 = z ∧
    1 ≤ (civilOfDays z).2.1 ∧ (civilOfDays z).2.1 ≤ 12 ∧ 1 ≤ (civilOfDays z).2.2 ∧
    (civilOfDays z).2.2 ≤ daysIn (civilOfDays z).2.1 (civilOfDays z).1 := by
  have hy := yearOfDay_spec (z + unixToAbsoluteDays)
  have hm := monthOfYday_spec (leapDay (yearOfDay (z + unixToAbsoluteDays)).1)
    (yearOfDay (z + unixToAbsoluteDays)).2 (leapDay_01 _) hy.2.1 hy.2.2
  simp only [civilOfDays, daysSinceEpoch, daysIn]
  refine ⟨?_, hm.1, hm.2.1, hm.2.2.1, hm.2.2.2.1⟩
  have h1 := hy.1
  have h2 := hm.2.2.2.2
  omega

/-- The civil date of the day number of a valid date is that date. -/
theorem civilOfDays_daysSinceEpoch (y m d : Int) (hm : 1 ≤ m ∧ m ≤ 12)
    (hd : 1 ≤ d ∧ d ≤ daysIn m y) : civilOfDays (daysSinceEpoch y m d) = (y, m, d) := by
  have h := monthOfYday_eq (leapDay y) m d (leapDay_01 y) hm hd
  have hy := yearOfDay_eq (y := y) ⟨h.2.1, h.2.2⟩
  have e : daysSinceEpoch y m d + unixToAbsoluteDays
      = daysBeforeYear y + (daysBefore m + (if 3 ≤ m then leapDay y else 0) + (d - 1)) := by
    unfold daysSinceEpoch; omega
  simp only [civilOfDays, e, hy, h.1]

/-! ## Formatting and parsing dates -/

/-- The character of a digit is a digit character with that value. -/
theorem digitChar_spec (n : Nat) (h : n < 10) :
    isDigit (Nat.digitChar n) = true ∧ digitVal (Nat.digitChar n) = n := by
  interval_cases n <;> decide

/-- A digit character is the character of its value. -/
theorem digit_of_isDigit (c : Char) (h : isDigit c = true) :
    ∃ n : Nat, n < 10 ∧ c = Nat.digitChar n ∧ digitVal c = n := by
  simp only [isDigit, decide_eq_true_eq] at h
  refine ⟨c.toNat - 48, by omega, ?_, by unfold digitVal; omega⟩
  have hc : c = Char.ofNat c.toNat := (Char.ofNat_toNat c).symm
  obtain ⟨h1, h2⟩ := h
  generalize c.toNat = k at *
  subst hc
  interval_cases k <;> rfl

/-- Two low-order digits. -/
theorem lastDigits_two (n : Nat) :
    lastDigits 2 n = [Nat.digitChar (n / 10 % 10), Nat.digitChar (n % 10)] := by
  simp [lastDigits]

/-- Four low-order digits. -/
theorem lastDigits_four (n : Nat) :
    lastDigits 4 n = [Nat.digitChar (n / 1000 % 10), Nat.digitChar (n / 100 % 10),
      Nat.digitChar (n / 10 % 10), Nat.digitChar (n % 10)] := by
  simp [lastDigits, Nat.div_div_eq_div_mul]

/-- The text `YYYY-MM-DD` that `Format` writes for a civil date. -/
theorem Format_eq (t : Int) :
    Format t = String.mk (appendInt (civilOfDays (t / Day)).1 4 ++ [Char.ofNat 45]
      ++ appendInt (civilOfDays (t / Day)).2.1 2 ++ [Char.ofNat 45]
      ++ appendInt (civilOfDays (t / Day)).2.2 2) := rfl

/-- A number below 10000 is written with four digits. -/
theorem appendInt_four (n : Nat) (h : n < 10000) :
    appendInt (n : Int) 4 = [Nat.digitChar (n / 1000 % 10), Nat.digitChar (n / 100 % 10),
      Nat.digitChar (n / 10 % 10), Nat.digitChar (n % 10)] := by
  unfold appendInt
  rw [if_neg (by omega), Int.natAbs_ofNat, if_pos (by norm_num; exact h), lastDigits_four]
  rfl

/-- A number below 100 is written with two digits. -/
theorem appendInt_two (n : Nat) (h : n < 100) :
    appendInt (n : Int) 2 = [Nat.digitChar (n / 10 % 10), Nat.digitChar (n % 10)] := by
  unfold appendInt
  rw [if_neg (by omega), Int.natAbs_ofNat, if_pos (by norm_num; exact h), lastDigits_two]
  rfl

/-- Parsing the text written for a valid date with a four-digit year gives the date. -/
theorem Parse_text (y m d : Nat) (hy : y < 10000) (hm : 1 ≤ m ∧ m ≤ 12)
    (hd : 1 ≤ d ∧ (d : Int) ≤ daysIn m y) :
    Parse (String.mk (appendInt (y : Int) 4 ++ [Char.ofNat 45] ++ appendInt (m : Int) 2
      ++ [Char.ofNat 45] ++ appendInt (d : Int) 2)) = some (Date y m d) := by
  have hd31 : d < 100 := by
    have : daysIn m y ≤ 31 := by
      unfold daysIn monthLen
      rcases leapDay_01 y with h | h <;> rw [h] <;> split_ifs <;> omega
    omega
  rw [appendInt_four y hy, appendInt_two m (by omega), appendInt_two d hd31]
  have e1 := digitChar_spec (y / 1000 % 10) (by omega)
  have e2 := digitChar_spec (y / 100 % 10) (by omega)
  have e3 := digitChar_spec (y / 10 % 10) (by omega)
  have e4 := digitChar_spec (y % 10) (by omega)
  have e5 := digitChar_spec (m / 10 % 10) (by omega)
  have e6 := digitChar_spec (m % 10) (by omega)
  have e7 := digitChar_spec (d / 10 % 10) (by omega)
  have e8 := digitChar_spec (d % 10) (by omega)
  have ey : (((((y / 1000 % 10 : Nat) : Int) * 10 + ((y / 100 % 10 : Nat) : Int)) * 10
      + ((y / 10 % 10 : Nat) : Int)) * 10 + ((y % 10 : Nat) : Int)) = (y : Int) := by omega
  have em : (((m / 10 % 10 : Nat) : Int) * 10 + ((m % 10 : Nat) : Int)) = (m : Int) := by omega
  have ed : (((d / 10 % 10 : Nat) : Int) * 10 + ((d % 10 : Nat) : Int)) = (d : Int) := by omega
  simp only [Parse, List.cons_append, List.nil_append, List.all_cons, List.all_nil,
    e1.1, e2.1, e3.1, e4.1, e5.1, e6.1, e7.1, e8.1, e1.2, e2.2, e3.2, e4.2, e5.2, e6.2, e7.2,
    e8.2, Bool.and_self, beq_self_eq_true, if_true, ey, em, ed]
  rw [if_neg (by omega), if_neg (by omega)]

/-- A string that parses is the text of a valid date with a four-digit year. -/
theorem Parse_some (s : String) (t : Int) (h : Parse s = some t) :
    ∃ y m d : Nat, y < 10000 ∧ (1 ≤ m ∧ m ≤ 12) ∧ (1 ≤ d ∧ (d : Int) ≤ daysIn m y) ∧
      t = Date y m d ∧
      s = String.mk (appendInt (y : Int) 4 ++ [Char.ofNat 45] ++ appendInt (m : Int) 2
        ++ [Char.ofNat 45] ++ appendInt (d : Int) 2) := by
  unfold Parse at h
  split at h
  · rename_i y1 y2 y3 y4 s1 m1 m2 s2 d1 d2 hs
    split at h
    · rename_i hc
      simp only [List.all_cons, List.all_nil, Bool.and_true, Bool.and_eq_true, beq_iff_eq] at hc
      obtain ⟨⟨⟨h1, h2, h3, h4, h5, h6, h7, h8⟩, hs1⟩, hs2⟩ := hc
      subst hs1 hs2
      obtain ⟨a1, b1, c1, v1⟩ := digit_of_isDigit _ h1
      obtain ⟨a2, b2, c2, v2⟩ := digit_of_isDigit _ h2
      obtain ⟨a3, b3, c3, v3⟩ := digit_of_isDigit _ h3
      obtain ⟨a4, b4, c4, v4⟩ := digit_of_isDigit _ h4
      obtain ⟨a5, b5, c5, v5⟩ := digit_of_isDigit _ h5
      obtain ⟨a6, b6, c6, v6⟩ := digit_of_isDigit _ h6
      obtain ⟨a7, b7, c7, v7⟩ := digit_of_isDigit _ h7
      obtain ⟨a8, b8, c8, v8⟩ := digit_of_isDigit _ h8
      simp only [v1, v2, v3, v4, v5, v6, v7, v8] at h
      split at h
      · exact absurd h (by simp)
      · split at h
        · exact absurd h (by simp)
        · rename_i hm hd
          have ey : ((((a1 : Int) * 10 + a2) * 10 + a3) * 10 + a4)
              = ((a1 * 1000 + a2 * 100 + a3 * 10 + a4 : Nat) : Int) := by push_cast; ring
          have em : ((a5 : Int) * 10 + a6) = ((a5 * 10 + a6 : Nat) : Int) := by push_cast; ring
          have ed : ((a7 : Int) * 10 + a8) = ((a7 * 10 + a8 : Nat) : Int) := by push_cast; ring
          rw [ey, em, ed] at h hd
          rw [em] at hm
          refine ⟨a1 * 1000 + a2 * 100 + a3 * 10 + a4, a5 * 10 + a6, a7 * 10 + a8, by omega,
            by omega, ⟨by omega, by omega⟩, (Option.some.inj h).symm, ?_⟩
          rw [appendInt_four _ (by omega), appendInt_two _ (by omega), appendInt_two _ (by omega)]
          have q1 : (a1 * 1000 + a2 * 100 + a3 * 10 + a4) / 1000 % 10 = a1 := by omega
          have q2 : (a1 * 1000 + a2 * 100 + a3 * 10 + a4) / 100 % 10 = a2 := by omega
          have q3 : (a1 * 1000 + a2 * 100 + a3 * 10 + a4) / 10 % 10 = a3 := by omega
          have q4 : (a1 * 1000 + a2 * 100 + a3 * 10 + a4) % 10 = a4 := by omega
          have q5 : (a5 * 10 + a6) / 10 % 10 = a5 := by omega
          have q6 : (a5 * 10 + a6) % 10 = a6 := by omega
          have q7 : (a7 * 10 + a8) / 10 % 10 = a7 := by omega
          have q8 : (a7 * 10 + a8) % 10 = a8 := by omega
          rw [q1, q2, q3, q4, q5, q6, q7, q8, ← c1, ← c2, ← c3, ← c4, ← c5, ← c6, ← c7, ← c8]
          simp only [List.cons_append, List.nil_append, ← hs]
    · exact absurd h (by simp)
  · exact absurd h (by simp)

/-- The day number of the midnight of a date. -/
theorem Date_div_Day (y m d : Int) : Date y m d / Day = daysSinceEpoch y m d := by
  unfold Date
  exact Int.mul_ediv_cancel _ (by decide)

/-- Formatting the instant a parsed string denotes gives the string back. -/
theorem Format_Parse (s : String) (t : Int) (h : Parse s = some t) : Format t = s := by
  obtain ⟨y, m, d, hy, hm, hd, rfl, hs⟩ := Parse_some s t h
  unfold Format
  rw [Date_div_Day, civilOfDays_daysSinceEpoch y m d (by omega) ⟨by omega, hd.2⟩]
  exact hs.symm

/-! ## Facts about the validator -/

/-- The empty string does not parse. -/
theorem Parse_empty : Parse "" = none := by decide

/-- An instant lies in the day that starts at its `dayStart`. -/
theorem dayStart_bounds (now : Int) : dayStart now ≤ now ∧ now < dayStart now + Day := by
  simp only [dayStart, Day, Hour, Second]
  omega

/-- Bounds of the day numbers of the valid dates of one year. -/
theorem daysSinceEpoch_bounds (y m d : Int) (hm : 1 ≤ m ∧ m ≤ 12)
    (hd : 1 ≤ d ∧ d ≤ daysIn m y) :
    daysBeforeYear y - unixToAbsoluteDays ≤ daysSinceEpoch y m d ∧
    daysSinceEpoch y m d < daysBeforeYear (y + 1) - unixToAbsoluteDays := by
  have h := monthOfYday_eq (leapDay y) m d (leapDay_01 y) hm hd
  rw [daysBeforeYear_succ]
  unfold daysSinceEpoch
  omega

/-- The year of the civil date grows with the day number. -/
theorem civilOfDays_year_mono {z1 z2 : Int} (h : z1 ≤ z2) :
    (civilOfDays z1).1 ≤ (civilOfDays z2).1 := by
  have h1 := civilOfDays_spec z1
  have h2 := civilOfDays_spec z2
  have b1 := daysSinceEpoch_bounds _ _ _ ⟨h1.2.1, h1.2.2.1⟩ ⟨h1.2.2.2.1, h1.2.2.2.2⟩
  have b2 := daysSinceEpoch_bounds _ _ _ ⟨h2.2.1, h2.2.2.1⟩ ⟨h2.2.2.2.1, h2.2.2.2.2⟩
  rw [h1.1] at b1
  rw [h2.1] at b2
  by_contra hlt
  have := daysBeforeYear_mono (show (civilOfDays z2).1 + 1 ≤ (civilOfDays z1).1 by omega)
  omega

/-- A parsed instant is a whole number of days, of a year with four digits. -/
theorem Parse_day (s : String) (t : Int) (h : Parse s = some t) :
    ∃ z : Int, t = z * Day ∧ 0 ≤ (civilOfDays z).1 ∧ (civilOfDays z).1 ≤ 9999 := by
  obtain ⟨y, m, d, hy, hm, hd, rfl, _⟩ := Parse_some s t h
  refine ⟨daysSinceEpoch y m d, rfl, ?_⟩
  rw [civilOfDays_daysSinceEpoch y m d (by omega) ⟨by omega, hd.2⟩]
  simp only
  omega

/-- Formatting a day with a four-digit year and parsing the text gives the day back. -/
theorem Parse_Format (z : Int) (h0 : 0 ≤ (civilOfDays z).1) (h1 : (civilOfDays z).1 ≤ 9999) :
    Parse (Format (z * Day)) = some (z * Day) := by
  have hc := civilOfDays_spec z
  rw [Format_eq, Int.mul_ediv_cancel _ (show Day ≠ 0 by decide)]
  obtain ⟨hz, hm1, hm2, hd1, hd2⟩ := hc
  generalize (civilOfDays z).1 = Y at *
  generalize (civilOfDays z).2.1 = M at *
  generalize (civilOfDays z).2.2 = D at *
  obtain ⟨y, rfl⟩ := Int.eq_ofNat_of_zero_le h0
  obtain ⟨m, rfl⟩ := Int.eq_ofNat_of_zero_le (show 0 ≤ M by omega)
  obtain ⟨d, rfl⟩ := Int.eq_ofNat_of_zero_le (show 0 ≤ D by omega)
  rw [Parse_text y m d (by omega) (by omega) ⟨by omega, hd2⟩]
  unfold Date
  rw [hz]

/-- Closed form of the loop of `GetDateRange`: from a start `n` days before the
stop it appends the `n + 1` formatted days. -/
theorem dateRangeLoop_eq (n : Nat) : ∀ (current : Int) (dates : List String),
    dateRangeLoop (current + n * Day) current dates
      = dates ++ (List.range (n + 1)).map (fun (i : Nat) => Format (current + (i : Int) * Day)) := by
  induction n with
  | zero =>
    intro current dates
    rw [dateRangeLoop, dif_neg (by simp [After]), dateRangeLoop,
      dif_pos (by simp [After, AddDate, Day, Hour, Second])]
    simp [List.range_succ]
  | succ n ih =>
    intro current dates
    have e : current + ((n + 1 : Nat) : Int) * Day = AddDate current 1 + n * Day := by
      simp only [AddDate]; push_cast; ring
    rw [dateRangeLoop, dif_neg (by
      simp only [After, decide_eq_true_eq, not_lt, Day, Hour, Second]; push_cast; omega), e, ih]
    rw [List.range_succ_eq_map (n + 1), List.map_cons, List.map_map, List.append_assoc]
    congr 1
    simp only [List.singleton_append, Nat.cast_zero, zero_mul, add_zero, List.cons.injEq,
      true_and]
    apply List.map_congr_left
    intro i _
    simp only [Function.comp, AddDate]
    congr 1
    push_cast
    ring

/-- What `ValidateDate` returns on a string that parses. -/
theorem ValidateDate_of_Parse (now : Int) (s : String) (t : Int) (h : Parse s = some t) :
    ValidateDate now s =
      if now < t then .error "date cannot be in the future"
      else if t < now - 90 * Day then .error "date cannot be more than 90 days in the past"
      else .ok () := by
  have hne : s ≠ "" := by
    rintro rfl
    rw [Parse_empty] at h
    exact absurd h (by simp)
  unfold ValidateDate
  rw [if_neg hne, h]
  simp only [After, Before, AddDate, decide_eq_true_eq]
  have e : now + -90 * Day = now - 90 * Day := by ring
  rw [e]

/-- The result of `GetDateRange` on two strings that parse, the first not after
the second: the formatted days from the first to the second. -/
theorem GetDateRange_of_Parse (startDate endDate : String) (s e : Int)
    (hs : Parse startDate = some s) (he : Parse endDate = some e) (hse : s ≤ e) :
    ∃ n : Nat, e = s + n * Day ∧
      GetDateRange startDate endDate
        = .ok ((List.range (n + 1)).map (fun (i : Nat) => Format (s + (i : Int) * Day))) ∧
      ∀ i : Nat, i ≤ n → Parse (Format (s + (i : Int) * Day)) = some (s + (i : Int) * Day) := by
  obtain ⟨zs, rfl, hs0, hs1⟩ := Parse_day _ _ hs
  obtain ⟨ze, rfl, he0, he1⟩ := Parse_day _ _ he
  have hD : (0 : Int) < Day := by decide
  have hz : zs ≤ ze := le_of_mul_le_mul_right hse hD
  refine ⟨(ze - zs).toNat, ?_, ?_, ?_⟩
  · rw [Int.toNat_of_nonneg (by omega)]; ring
  · unfold GetDateRange
    rw [hs, he]
    simp only
    rw [if_neg (by simpa [After] using hse)]
    have e1 : ze * Day = zs * Day + ((ze - zs).toNat : Int) * Day := by
      rw [Int.toNat_of_nonneg (by omega)]; ring
    rw [e1, dateRangeLoop_eq]
    simp
  · intro i hi
    have hi2 : (i : Int) ≤ ze - zs := by
      have := Int.toNat_of_nonneg (show 0 ≤ ze - zs by omega)
      omega
    have e2 : zs * Day + (i : Int) * Day = (zs + i) * Day := by ring
    rw [e2]
    apply Parse_Format
    · exact le_trans hs0 (civilOfDays_year_mono (by omega))
    · exact le_trans (civilOfDays_year_mono (by omega)) he1

/-- When `GetDateRange` fails. -/
theorem GetDateRange_isError_iff (startDate endDate : String) :
    isError (GetDateRange startDate endDate) = true ↔
      (Parse startDate = none ∨ Parse endDate = none ∨
        ∃ s e, Parse startDate = some s ∧ Parse endDate = some e ∧ e < s) := by
  cases hs : Parse startDate with
  | none => simp [GetDateRange, hs, isError]
  | some s =>
    cases he : Parse endDate with
    | none => simp [GetDateRange, hs, he, isError]
    | some e =>
      by_cases hse : e < s
      · simp [GetDateRange, hs, he, isError, After, hse]
      · simp [GetDateRange, hs, he, isError, After, hse]

/-- A date accepted by `ValidateDate` parses. -/
theorem ValidateDate_ok_Parse (now : Int) (s : String) (h : ValidateDate now s = .ok ()) :
    ∃ t, Parse s = some t := by
  unfold ValidateDate at h
  split at h
  · exact absurd h (by simp)
  · cases hp : Parse s with
    | none => rw [hp] at h; exact absurd h (by simp)
    | some t => exact ⟨t, rfl⟩

/-! ## Facts about the cache store and the rate provider -/

/-- Reading the key that was just set. -/
theorem Get_Set_same {α : Type} (c : CacheRepository) (unmarshal : CacheValue → Except String α)
    (k : String) (v : CacheValue) (ttl t t2 : Int) :
    (c.Set t k v ttl).Get unmarshal t2 k =
      if t + ttl < t2 then (.error "key expired", (c.Set t k v ttl).Delete k)
      else (unmarshal v, c.Set t k v ttl) := by
  simp [CacheRepository.Get, CacheRepository.Set, After, Add]

/-- A successful `Get` leaves the store as it is. -/
theorem Get_ok_cache {α : Type} (c : CacheRepository) (unmarshal : CacheValue → Except String α)
    (now : Int) (k : String) (a : α) (h : (c.Get unmarshal now k).1 = .ok a) :
    (c.Get unmarshal now k).2 = c := by
  unfold CacheRepository.Get at h ⊢
  split
  · rfl
  · rename_i item hi
    rw [hi] at h
    simp only at h
    split
    · rename_i he
      rw [if_pos he] at h
      exact absurd h (by simp)
    · rfl

/-- `Get` changes no entry under another key. -/
theorem Get_frame {α : Type} (c : CacheRepository) (unmarshal : CacheValue → Except String α)
    (now : Int) (k k2 : String) (h : k2 ≠ k) :
    (c.Get unmarshal now k).2.items k2 = c.items k2 := by
  unfold CacheRepository.Get
  split
  · rfl
  · split
    · simp [CacheRepository.Delete, h]
    · rfl

/-- The resolution of one rate through the cache, for a key, a provider answer and
a lifetime: the shape shared by `getLatestRate` and `getHistoricalRate`. -/
theorem resolve_shape (now : Int) (key : String) (answer : Except String ExchangeRate)
    (e : Event) (ttl : Int) (w : World)
    (res : Except String ExchangeRate × World)
    (hres : res = match cacheGet unmarshalExchangeRate now key w with
      | (.ok cachedRate, w1) => (.ok cachedRate, w1)
      | (.error _, w1) =>
        match answer with
        | .error err => (.error err, called e w1)
        | .ok rate => (.ok rate, cacheSet now key (.exchangeRate rate) ttl (called e w1))) :
    (∀ k, k ≠ key → res.2.cache.items k = w.cache.items k) ∧
    (∀ r, (w.cache.Get unmarshalExchangeRate now key).1 = .ok r →
      res = (.ok r, { cache := w.cache, trace := w.trace ++ [Event.cacheGet key] })) ∧
    (∀ r, isError (w.cache.Get unmarshalExchangeRate now key).1 = true → answer = .ok r →
      res.1 = .ok r ∧
      res.2.trace = w.trace ++ [Event.cacheGet key, e, Event.cacheSet key ttl] ∧
      res.2.cache.items key = some ⟨.exchangeRate r, now + ttl⟩) := by
  subst hres
  have hf := Get_frame w.cache unmarshalExchangeRate now key
  refine ⟨?_, ?_, ?_⟩
  · intro k hk
    simp only [cacheGet]
    cases hg : (w.cache.Get unmarshalExchangeRate now key).1 with
    | ok r => simp only [hf k hk]
    | error err =>
      simp only
      cases answer with
      | error e2 => simp only [called, hf k hk]
      | ok rate => simp only [called, cacheSet, CacheRepository.Set, hk, if_false, hf k hk]
  · intro r hr
    have hc := Get_ok_cache w.cache unmarshalExchangeRate now key r hr
    simp only [cacheGet, hr, hc]
  · intro r hr ha
    subst ha
    simp only [cacheGet]
    cases hg : (w.cache.Get unmarshalExchangeRate now key).1 with
    | ok r2 => rw [hg] at hr; exact absurd hr (by simp [isError])
    | error err =>
      simp only [called, cacheSet, CacheRepository.Set, if_true, Add, List.append_assoc,
        List.singleton_append, List.cons_append, List.nil_append, and_self]

/-- The provider method `GetLatestRate` has no error return. -/
theorem GetLatestRate_ok (res : HTTPResult ExchangeHostResponse) (now : Int)
    (from_ to_ : String) : ∃ r, GetLatestRate res now from_ to_ = .ok r := by
  unfold GetLatestRate
  cases res with
  | response status apiResp =>
    simp only
    split
    · exact ⟨_, rfl⟩
    · split <;> exact ⟨_, rfl⟩
  | _ => exact ⟨_, rfl⟩

/-- The provider method `GetHistoricalRate` has no error return. -/
theorem GetHistoricalRate_ok (res : HTTPResult HistoricalResponse) (now : Int)
    (from_ to_ date : String) : ∃ r, GetHistoricalRate res now from_ to_ date = .ok r := by
  unfold GetHistoricalRate
  cases res with
  | response status apiResp =>
    simp only
    split
    · exact ⟨_, rfl⟩
    · split <;> exact ⟨_, rfl⟩
  | _ => exact ⟨_, rfl⟩

/-- The provider method `GetAllLatestRates` has no error return. -/
theorem GetAllLatestRates_ok (res : HTTPResult ExchangeHostResponse) (baseCurrency : String) :
    ∃ m, GetAllLatestRates res baseCurrency = .ok m := by
  unfold GetAllLatestRates
  cases res with
  | response status apiResp =>
    simp only
    split <;> exact ⟨_, rfl⟩
  | _ => exact ⟨_, rfl⟩

/-- Against the real provider the latest single-rate resolution does not fail. -/
theorem getLatestRate_real_ok (up : Upstream) (t now : Int) (from_ to_ : String) (w : World) :
    isError (getLatestRate (NewExchangeAPIRepository up t) now from_ to_ w).1 = false := by
  unfold getLatestRate
  simp only
  split
  · rfl
  · obtain ⟨r, hr⟩ := GetLatestRate_ok (up.live from_ to_) t from_ to_
    simp only [NewExchangeAPIRepository, hr]
    rfl

/-- Against the real provider the historical single-rate resolution does not fail. -/
theorem getHistoricalRate_real_ok (up : Upstream) (t now : Int) (from_ to_ date : String)
    (w : World) :
    isError (getHistoricalRate (NewExchangeAPIRepository up t) now from_ to_ date w).1 = false := by
  unfold getHistoricalRate
  simp only
  split
  · rfl
  · obtain ⟨r, hr⟩ := GetHistoricalRate_ok (up.historical date from_ to_) t from_ to_ date
    simp only [NewExchangeAPIRepository, hr]
    rfl

/-- A call of `GetLatestRates` that finds the mapping `m` cached and not expired:
it returns `m`, leaves the cache as it is and makes one cache read. -/
theorem GetLatestRates_hit (api : ExchangeRepository) (now : Int) (baseCurrency : String)
    (w : World) (m : List (String × Float64)) (exp : Int)
    (hb : IsValidCurrency baseCurrency = true)
    (hc : w.cache.items ("latest_rates_" ++ baseCurrency) = some ⟨.rates m, exp⟩)
    (ht : now ≤ exp) :
    GetLatestRates api now baseCurrency w =
      (.ok { BaseCurrency := baseCurrency, Rates := m, Timestamp := now, Date := Format now },
        { cache := w.cache,
          trace := w.trace ++ [Event.cacheGet ("latest_rates_" ++ baseCurrency)] }) := by
  unfold GetLatestRates
  rw [if_neg (by simp [hb])]
  simp only [cacheGet, CacheRepository.Get, hc, After, decide_eq_true_eq]
  rw [if_neg (by omega)]
  rfl

/-- A call of `GetLatestRates` that finds no entry: it asks the provider once and,
when the provider answers `m`, caches `m` for one hour and returns it. -/
theorem GetLatestRates_miss (api : ExchangeRepository) (now : Int) (baseCurrency : String)
    (w : World) (m : List (String × Float64))
    (hb : IsValidCurrency baseCurrency = true)
    (hc : w.cache.items ("latest_rates_" ++ baseCurrency) = none)
    (hm : api.GetAllLatestRates baseCurrency = .ok m) :
    GetLatestRates api now baseCurrency w =
      (.ok { BaseCurrency := baseCurrency, Rates := m, Timestamp := now, Date := Format now },
        { cache := w.cache.Set now ("latest_rates_" ++ baseCurrency) (.rates m) Hour,
          trace := w.trace ++ [Event.cacheGet ("latest_rates_" ++ baseCurrency),
            Event.apiAllLatest baseCurrency,
            Event.cacheSet ("latest_rates_" ++ baseCurrency) Hour] }) := by
  unfold GetLatestRates
  rw [if_neg (by simp [hb])]
  simp only [cacheGet, CacheRepository.Get, hc, hm, cacheSet, called, List.append_assoc,
    List.singleton_append, List.cons_append, List.nil_append]

/-- Repeated `GetLatestRates` calls on a cached, unexpired mapping. -/
theorem latestRatesCalls_hits (baseCurrency : String) (m : List (String × Float64)) (exp : Int)
    (hb : IsValidCurrency baseCurrency = true) :
    ∀ (rest : List (ExchangeRepository × Int)) (w : World),
      w.cache.items ("latest_rates_" ++ baseCurrency) = some ⟨.rates m, exp⟩ →
      (∀ p ∈ rest, p.2 ≤ exp) →
      (latestRatesCalls baseCurrency rest w).1
        = rest.map (fun p => Except.ok (⟨baseCurrency, m, p.2, Format p.2⟩ : LatestRatesResponse))
        ∧
      (latestRatesCalls baseCurrency rest w).2.trace
        = w.trace ++ List.replicate rest.length (Event.cacheGet ("latest_rates_" ++ baseCurrency))
  | [], w, _, _ => by simp [latestRatesCalls]
  | (api, now) :: rest, w, hc, ht => by
    have h1 := GetLatestRates_hit api now baseCurrency w m exp hb hc
      (ht (api, now) (List.mem_cons_self _ _))
    have ih := latestRatesCalls_hits baseCurrency m exp hb rest
      { cache := w.cache, trace := w.trace ++ [Event.cacheGet ("latest_rates_" ++ baseCurrency)] }
      hc (fun p hp => ht p (List.mem_cons_of_mem _ hp))
    simp only [latestRatesCalls, h1, ih.1, ih.2, List.map_cons, List.length_cons,
      List.replicate_succ, List.append_assoc, List.singleton_append, and_self]

/-! ## Facts about currencies, the static table and the refresh -/

/-- The supported currencies are the five codes of the table. -/
theorem IsValidCurrency_mem (code : String) :
    IsValidCurrency code = true ↔ code ∈ ["USD", "INR", "EUR", "JPY", "GBP"] := by
  simp only [IsValidCurrency, SupportedCurrencies, List.lookup, List.mem_cons, List.mem_singleton,
    List.not_mem_nil, or_false]
  by_cases h1 : code = "USD"
  · subst h1; decide
  by_cases h2 : code = "INR"
  · subst h2; decide
  by_cases h3 : code = "EUR"
  · subst h3; decide
  by_cases h4 : code = "JPY"
  · subst h4; decide
  by_cases h5 : code = "GBP"
  · subst h5; decide
  have e1 : (code == "USD") = false := by simpa using h1
  have e2 : (code == "INR") = false := by simpa using h2
  have e3 : (code == "EUR") = false := by simpa using h3
  have e4 : (code == "JPY") = false := by simpa using h4
  have e5 : (code == "GBP") = false := by simpa using h5
  simp [e1, e2, e3, e4, e5, h1, h2, h3, h4, h5]

/-- Appending to the same string is injective. -/
theorem append_left_cancel (p a b : String) (h : p ++ a = p ++ b) : a = b := by
  have h2 := congrArg String.data h
  simp only [String.data_append] at h2
  exact String.ext (List.append_cancel_left h2)

/-- A value found by `lookup` is paired with its key in the list. -/
theorem mem_of_lookup {α : Type} (k : String) (v : α) :
    ∀ l : List (String × α), l.lookup k = some v → (k, v) ∈ l
  | [], h => by simp at h
  | (k2, v2) :: l, h => by
    rw [List.lookup_cons] at h
    by_cases hk : (k == k2) = true
    · rw [hk] at h
      simp only [Option.some.injEq] at h
      have : k = k2 := by simpa using hk
      subst h this
      exact List.mem_cons_self _ _
    · simp only [Bool.not_eq_true] at hk
      rw [hk] at h
      exact List.mem_cons_of_mem _ (mem_of_lookup k v l h)

/-- Every rate of the static table is strictly positive. -/
theorem getMockRates_pos (baseCurrency : String) :
    ∀ e ∈ getMockRates baseCurrency, 0 < e.2 := by
  unfold getMockRates
  simp only
  split
  · rename_i rates h
    have hm := mem_of_lookup _ _ _ h
    simp only [List.mem_cons, Prod.mk.injEq, List.mem_singleton, List.not_mem_nil, or_false] at hm
    rcases hm with ⟨_, rfl⟩ | ⟨_, rfl⟩ | ⟨_, rfl⟩ | ⟨_, rfl⟩ | ⟨_, rfl⟩ <;>
      · intro e he
        simp only [List.mem_cons, List.mem_singleton, List.not_mem_nil, or_false] at he
        rcases he with rfl | rfl | rfl | rfl <;> norm_num
  · intro e he
    simp at he

/-- The fallback rate is strictly positive for every pair. -/
theorem getMockRate_pos (now : Int) (from_ to_ : String) :
    0 < (getMockRate now from_ to_).Rate := by
  unfold getMockRate
  simp only
  cases h : (getMockRates from_).lookup to_ with
  | none => norm_num
  | some rate => exact getMockRates_pos from_ _ (mem_of_lookup _ _ _ h)

/-- The rate `GetLatestRate` answers: the fallback rate when the exchange failed,
the quote of the payload otherwise. -/
theorem GetLatestRate_rate (res : HTTPResult ExchangeHostResponse) (now : Int)
    (from_ to_ : String) :
    ∃ r, GetLatestRate res now from_ to_ = .ok r ∧
      (exchangeFailed res from_ to_ = true → r = getMockRate now from_ to_) ∧
      (exchangeFailed res from_ to_ = false → quoted res from_ to_ = some r.Rate) := by
  unfold GetLatestRate
  cases res with
  | response status apiResp =>
    simp only [exchangeFailed, quoted]
    by_cases hc : (!apiResp.Success || apiResp.Error.isSome) = true
    · rw [if_pos hc]
      refine ⟨_, rfl, fun _ => rfl, ?_⟩
      intro h
      rw [hc] at h
      simp at h
    · rw [if_neg hc]
      simp only [Bool.not_eq_true] at hc
      rw [hc]
      cases hq : apiResp.Quotes.lookup (from_ ++ to_) with
      | none => exact ⟨_, rfl, fun _ => rfl, by simp⟩
      | some q => exact ⟨_, rfl, by simp, fun _ => rfl⟩
  | requestError => exact ⟨_, rfl, fun _ => rfl, by simp [exchangeFailed]⟩
  | doError => exact ⟨_, rfl, fun _ => rfl, by simp [exchangeFailed]⟩
  | readError s => exact ⟨_, rfl, fun _ => rfl, by simp [exchangeFailed]⟩
  | unmarshalError s => exact ⟨_, rfl, fun _ => rfl, by simp [exchangeFailed]⟩

/-- A latest-rate conversion from the empty cache returns the provider's answer. -/
theorem ConvertCurrency_empty_cache (api : ExchangeRepository) (now : Int) (a b : String)
    (amount : Float64) (r : ExchangeRate)
    (ha : IsValidCurrency a = true) (hb : IsValidCurrency b = true)
    (hr : api.GetLatestRate a b = .ok r) :
    (ConvertCurrency api now ⟨a, b, amount, ""⟩ ⟨NewCacheRepository, []⟩).1 = .ok {
      Amount := (if amount = 0 then 1 else amount) * r.Rate
      FromCurrency := a
      ToCurrency := b
      Rate := r.Rate
      Date := r.Date
      Timestamp := r.Timestamp } := by
  unfold ConvertCurrency
  simp only [ha, hb, Bool.not_true, Bool.or_self, Bool.false_eq_true, if_false, ne_eq,
    not_true_eq_false]
  simp only [getLatestRate, cacheGet, CacheRepository.Get, NewCacheRepository, hr]

/-- The keys of a map after the assignment `m[key] = value`. -/
theorem mapSet_keys {α : Type} (m : List (String × α)) (key : String) (value : α) (k : String) :
    k ∈ (mapSet m key value).map (·.1) ↔ k ∈ m.map (·.1) ∨ k = key := by
  unfold mapSet
  by_cases h : (m.any fun e => e.1 == key) = true
  · rw [if_pos h]
    simp only [List.any_eq_true, beq_iff_eq] at h
    obtain ⟨e0, he0, hk0⟩ := h
    simp only [List.map_map, List.mem_map, Function.comp]
    constructor
    · rintro ⟨e, he, rfl⟩
      by_cases hek : (e.1 == key) = true
      · right; simp [hek]
      · left; simp only [hek]; exact ⟨e, he, rfl⟩
    · rintro (⟨e, he, rfl⟩ | rfl)
      · refine ⟨e, he, ?_⟩
        by_cases hek : (e.1 == key) = true
        · simp only [hek, if_true]; exact (beq_iff_eq.1 hek).symm
        · simp [hek]
      · exact ⟨e0, he0, by simp [hk0]⟩
  · rw [if_neg h]
    simp only [List.map_append, List.map_cons, List.map_nil, List.mem_append, List.mem_singleton]

/-- The builtin `len` counts the bytes of the UTF-8 encoding. -/
theorem len_bytes (s : String) : len s = s.toUTF8.size := by
  rw [String.size_toUTF8]; rfl

/-- Where byte `n` starts a character, the encoding of `sliceFrom` is the encoding
of the characters from byte `n` on. -/
theorem sliceFrom_flatMap : ∀ (cs : List Char) (n : Nat), startsChar cs n = true →
    (sliceFrom cs n).flatMap String.utf8EncodeChar = (cs.flatMap String.utf8EncodeChar).drop n
  | [], n, _ => by simp [sliceFrom]
  | c :: cs, n, h => by
    unfold sliceFrom
    unfold startsChar at h
    by_cases h0 : n = 0
    · subst h0; simp
    · rw [if_neg h0] at h ⊢
      by_cases h1 : c.utf8Size ≤ n
      · rw [if_pos h1] at h ⊢
        have e : List.drop n (String.utf8EncodeChar c) = [] :=
          List.drop_of_length_le (by rw [String.length_utf8EncodeChar]; exact h1)
        rw [sliceFrom_flatMap cs _ h, List.flatMap_cons, List.drop_append_eq_append_drop,
          String.length_utf8EncodeChar, e, List.nil_append]
      · rw [if_neg h1] at h; cases h

/-- Where byte `n` of a string starts a character, the bytes of `sliceFrom` are the
bytes of the string from byte `n` on, which is the slice `s[n:]`. -/
theorem sliceFrom_bytes (s : String) (n : Nat) (h : startsChar s.data n = true) :
    (String.mk (sliceFrom s.data n)).toUTF8.data.toList = s.toUTF8.data.toList.drop n :=
  sliceFrom_flatMap s.data n h

/-- The loop of `GetAllLatestRates` counts and cuts bytes: the key of one
three-byte character followed by INR gives INR, a key of two three-byte characters
gives the second of them, and a key of five bytes is left out. -/
theorem GetAllLatestRates_counts_bytes :
    GetAllLatestRates
        (.response 200 ⟨true, 0, "USD", [("€INR", 2), ("日本", 5), ("USDIN", 7)], none⟩) "USD"
      = .ok [("INR", 2), ("本", 5)] := by
  rfl

/-- The keys collected by the loop of `GetAllLatestRates` over the quotes. -/
theorem quotes_fold_keys (k : String) : ∀ (quotes acc : List (String × Float64)),
    k ∈ (quotes.foldl
        (fun rates e =>
          if len e.1 ≥ 6 then mapSet rates (String.mk (sliceFrom e.1.data 3)) e.2
          else rates) acc).map (·.1) ↔
      k ∈ acc.map (·.1) ∨ ∃ e ∈ quotes, 6 ≤ len e.1 ∧ String.mk (sliceFrom e.1.data 3) = k
  | [], acc => by simp
  | e :: quotes, acc => by
    rw [List.foldl_cons, quotes_fold_keys k quotes]
    by_cases h : len e.1 ≥ 6
    · rw [if_pos h, mapSet_keys]
      simp only [List.mem_cons, exists_eq_or_imp]
      constructor
      · rintro ((h1 | h1) | h1)
        · exact Or.inl h1
        · exact Or.inr (Or.inl ⟨h, h1.symm⟩)
        · exact Or.inr (Or.inr h1)
      · rintro (h1 | ⟨_, h1⟩ | h1)
        · exact Or.inl (Or.inl h1)
        · exact Or.inl (Or.inr h1.symm)
        · exact Or.inr h1
    · rw [if_neg h]
      simp only [List.mem_cons, exists_eq_or_imp]
      constructor
      · rintro (h1 | h1)
        · exact Or.inl h1
        · exact Or.inr (Or.inr h1)
      · rintro (h1 | ⟨h2, _⟩ | h1)
        · exact Or.inl h1
        · exact absurd h2 h
        · exact Or.inr h1

/-- The keys of the five rows of the static table. -/
theorem getMockRates_rows :
    (getMockRates "USD").map (·.1) = ["INR", "EUR", "JPY", "GBP"] ∧
    (getMockRates "EUR").map (·.1) = ["USD", "INR", "JPY", "GBP"] ∧
    (getMockRates "GBP").map (·.1) = ["USD", "INR", "EUR", "JPY"] ∧
    (getMockRates "INR").map (·.1) = ["USD", "EUR", "JPY", "GBP"] ∧
    (getMockRates "JPY").map (·.1) = ["USD", "EUR", "INR", "GBP"] := by
  decide

/-- The fallback mapping of a supported base has the four other supported
currencies as keys. -/
theorem getMockRates_keys (baseCurrency : String) (hb : IsValidCurrency baseCurrency = true) :
    ((getMockRates baseCurrency).map (·.1)).length = 4 ∧
    ∀ k, k ∈ (getMockRates baseCurrency).map (·.1) ↔
      (IsValidCurrency k = true ∧ k ≠ baseCurrency) := by
  obtain ⟨r1, r2, r3, r4, r5⟩ := getMockRates_rows
  rw [IsValidCurrency_mem] at hb
  simp only [List.mem_cons, List.mem_singleton, List.not_mem_nil, or_false] at hb
  rcases hb with rfl | rfl | rfl | rfl | rfl <;>
    · simp only [r1, r2, r3, r4, r5]
      refine ⟨by rfl, ?_⟩
      intro k
      rw [IsValidCurrency_mem]
      simp only [List.mem_cons, List.mem_singleton, List.not_mem_nil, or_false]
      constructor
      · rintro (rfl | rfl | rfl | rfl) <;> decide
      · rintro ⟨rfl | rfl | rfl | rfl | rfl, h2⟩ <;> first | exact absurd rfl h2 | decide

/-- What `GetAllLatestRates` answers: the fallback mapping when the exchange gave
no usable payload, the mapping collected from the quotes otherwise. -/
theorem GetAllLatestRates_eq (res : HTTPResult ExchangeHostResponse) (baseCurrency : String) :
    (payloadFailed res = true →
      GetAllLatestRates res baseCurrency = .ok (getMockRates baseCurrency)) ∧
    (∀ status apiResp, res = .response status apiResp → payloadFailed res = false →
      GetAllLatestRates res baseCurrency = .ok (apiResp.Quotes.foldl
        (fun rates e =>
          if len e.1 ≥ 6 then mapSet rates (String.mk (sliceFrom e.1.data 3)) e.2
          else rates) [])) := by
  cases res with
  | response status apiResp =>
    simp only [payloadFailed, GetAllLatestRates]
    refine ⟨fun h => by rw [if_pos h], ?_⟩
    intro s2 a2 h1 h2
    cases h1
    rw [if_neg (by simp [h2])]
  | requestError => exact ⟨fun _ => rfl, fun _ _ h => by cases h⟩
  | doError => exact ⟨fun _ => rfl, fun _ _ h => by cases h⟩
  | readError s => exact ⟨fun _ => rfl, fun _ _ h => by cases h⟩
  | unmarshalError s => exact ⟨fun _ => rfl, fun _ _ h => by cases h⟩

/-- A call of `GetLatestRates` whose cache read fails returns what the provider
answers. -/
theorem GetLatestRates_on_miss (api : ExchangeRepository) (now : Int) (baseCurrency : String)
    (w : World) (m : List (String × Float64))
    (hb : IsValidCurrency baseCurrency = true)
    (hmiss : isError (w.cache.Get unmarshalRates now ("latest_rates_" ++ baseCurrency)).1 = true)
    (hm : api.GetAllLatestRates baseCurrency = .ok m) :
    (GetLatestRates api now baseCurrency w).1
      = .ok ⟨baseCurrency, m, now, Format now⟩ := by
  unfold GetLatestRates
  rw [if_neg (by simp [hb])]
  simp only [cacheGet]
  cases hg : (w.cache.Get unmarshalRates now ("latest_rates_" ++ baseCurrency)).1 with
  | ok r => rw [hg] at hmiss; exact absurd hmiss (by simp [isError])
  | error e => simp only [hm]

/-- The quote keys an upstream that honours the request sends for a supported
base, and the keys `GetAllLatestRates` derives from them. -/
theorem honoured_keys (baseCurrency : String) (hb : IsValidCurrency baseCurrency = true)
    (k : String) :
    (∃ x ∈ ((SupportedCurrencies.map (·.1)).filter (· != baseCurrency)).map (baseCurrency ++ ·),
      6 ≤ len x ∧ String.mk (sliceFrom x.data 3) = k) ↔
      (IsValidCurrency k = true ∧ k ≠ baseCurrency) := by
  rw [IsValidCurrency_mem] at hb
  simp only [List.mem_cons, List.mem_singleton, List.not_mem_nil, or_false] at hb
  rw [IsValidCurrency_mem]
  rcases hb with rfl | rfl | rfl | rfl | rfl
  · have e : ((SupportedCurrencies.map (·.1)).filter (· != "USD")).map ("USD" ++ ·)
        = ["USDINR", "USDEUR", "USDJPY", "USDGBP"] := by decide
    rw [e]
    simp only [List.mem_cons, List.mem_singleton, List.not_mem_nil, or_false]
    constructor
    · rintro ⟨x, rfl | rfl | rfl | rfl, _, rfl⟩ <;> decide
    · rintro ⟨rfl | rfl | rfl | rfl | rfl, h2⟩
      · exact absurd rfl h2
      · exact ⟨"USDINR", by decide, by decide, by decide⟩
      · exact ⟨"USDEUR", by decide, by decide, by decide⟩
      · exact ⟨"USDJPY", by decide, by decide, by decide⟩
      · exact ⟨"USDGBP", by decide, by decide, by decide⟩
  · have e : ((SupportedCurrencies.map (·.1)).filter (· != "INR")).map ("INR" ++ ·)
        = ["INRUSD", "INREUR", "INRJPY", "INRGBP"] := by decide
    rw [e]
    simp only [List.mem_cons, List.mem_singleton, List.not_mem_nil, or_false]
    constructor
    · rintro ⟨x, rfl | rfl | rfl | rfl, _, rfl⟩ <;> decide
    · rintro ⟨rfl | rfl | rfl | rfl | rfl, h2⟩
      · exact ⟨"INRUSD", by decide, by decide, by decide⟩
      · exact absurd rfl h2
      · exact ⟨"INREUR", by decide, by decide, by decide⟩
      · exact ⟨"INRJPY", by decide, by decide, by decide⟩
      · exact ⟨"INRGBP", by decide, by decide, by decide⟩
  · have e : ((SupportedCurrencies.map (·.1)).filter (· != "EUR")).map ("EUR" ++ ·)
        = ["EURUSD", "EURINR", "EURJPY", "EURGBP"] := by decide
    rw [e]
    simp only [List.mem_cons, List.mem_singleton, List.not_mem_nil, or_false]
    constructor
    · rintro ⟨x, rfl | rfl | rfl | rfl, _, rfl⟩ <;> decide
    · rintro ⟨rfl | rfl | rfl | rfl | rfl, h2⟩
      · exact ⟨"EURUSD", by decide, by decide, by decide⟩
      · exact ⟨"EURINR", by decide, by decide, by decide⟩
      · exact absurd rfl h2
      · exact ⟨"EURJPY", by decide, by decide, by decide⟩
      · exact ⟨"EURGBP", by decide, by decide, by decide⟩
  · have e : ((SupportedCurrencies.map (·.1)).filter (· != "JPY")).map ("JPY" ++ ·)
        = ["JPYUSD", "JPYINR", "JPYEUR", "JPYGBP"] := by decide
    rw [e]
    simp only [List.mem_cons, List.mem_singleton, List.not_mem_nil, or_false]
    constructor
    · rintro ⟨x, rfl | rfl | rfl | rfl, _, rfl⟩ <;> decide
    · rintro ⟨rfl | rfl | rfl | rfl | rfl, h2⟩
      · exact ⟨"JPYUSD", by decide, by decide, by decide⟩
      · exact ⟨"JPYINR", by decide, by decide, by decide⟩
      · exact ⟨"JPYEUR", by decide, by decide, by decide⟩
      · exact absurd rfl h2
      · exact ⟨"JPYGBP", by decide, by decide, by decide⟩
  · have e : ((SupportedCurrencies.map (·.1)).filter (· != "GBP")).map ("GBP" ++ ·)
        = ["GBPUSD", "GBPINR", "GBPEUR", "GBPJPY"] := by decide
    rw [e]
    simp only [List.mem_cons, List.mem_singleton, List.not_mem_nil, or_false]
    constructor
    · rintro ⟨x, rfl | rfl | rfl | rfl, _, rfl⟩ <;> decide
    · rintro ⟨rfl | rfl | rfl | rfl | rfl, h2⟩
      · exact ⟨"GBPUSD", by decide, by decide, by decide⟩
      · exact ⟨"GBPINR", by decide, by decide, by decide⟩
      · exact ⟨"GBPEUR", by decide, by decide, by decide⟩
      · exact ⟨"GBPJPY", by decide, by decide, by decide⟩
      · exact absurd rfl h2

/-- The calls made by the refresh loop, in order. -/
theorem updateLoop_trace (api : ExchangeRepository) (now : Int) :
    ∀ (bases : List String) (w : World),
      (updateLoop api now bases w).trace = w.trace ++ bases.flatMap (refreshEvents api)
  | [], w => by simp [updateLoop]
  | b :: bases, w => by
    unfold updateLoop
    cases h : api.GetAllLatestRates b with
    | error e =>
      simp only [updateLoop_trace api now bases, called, List.flatMap_cons, refreshEvents, h,
        List.append_assoc]
    | ok m =>
      simp only [updateLoop_trace api now bases, called, cacheSet, List.flatMap_cons,
        refreshEvents, h, List.append_assoc, List.singleton_append, List.cons_append,
        List.nil_append]

/-- The provider calls among the events of the refresh loop: one per base. -/
theorem refreshEvents_calls (api : ExchangeRepository) : ∀ bases : List String,
    (bases.flatMap (refreshEvents api)).filter isApiCall = bases.map Event.apiAllLatest
  | [] => rfl
  | b :: bases => by
    rw [List.flatMap_cons, List.filter_append, refreshEvents_calls api bases]
    unfold refreshEvents
    cases api.GetAllLatestRates b <;> simp [List.filter_cons, isApiCall]

/-- The refresh loop leaves an entry as it is unless a base with that key had a
successful provider call. -/
theorem updateLoop_frame (api : ExchangeRepository) (now : Int) (k : String) :
    ∀ (bases : List String) (w : World),
      (∀ b ∈ bases, k = "latest_rates_" ++ b → isError (api.GetAllLatestRates b) = true) →
      (updateLoop api now bases w).cache.items k = w.cache.items k
  | [], w, _ => by simp [updateLoop]
  | b :: bases, w, h => by
    unfold updateLoop
    have hrest : ∀ b2 ∈ bases, k = "latest_rates_" ++ b2 →
        isError (api.GetAllLatestRates b2) = true :=
      fun b2 hb2 => h b2 (List.mem_cons_of_mem _ hb2)
    cases hb : api.GetAllLatestRates b with
    | error e =>
      simp only [updateLoop_frame api now k bases _ hrest, called]
    | ok m =>
      simp only [updateLoop_frame api now k bases _ hrest, called, cacheSet,
        CacheRepository.Set]
      have hk : k ≠ "latest_rates_" ++ b := by
        intro hk
        have := h b (List.mem_cons_self _ _) hk
        rw [hb] at this
        exact absurd this (by simp [isError])
      rw [if_neg hk]

/-- The refresh loop stores the answer for a base that occurs once in the list and
whose provider call succeeded. -/
theorem updateLoop_stored (api : ExchangeRepository) (now : Int) (b : String)
    (m : List (String × Float64)) (hm : api.GetAllLatestRates b = .ok m) :
    ∀ (bases : List String) (w : World), bases.Nodup → b ∈ bases →
      (updateLoop api now bases w).cache.items ("latest_rates_" ++ b)
        = some ⟨.rates m, now + Hour⟩
  | [], w, _, hb => by simp at hb
  | b0 :: bases, w, hnd, hb => by
    rw [List.nodup_cons] at hnd
    by_cases h0 : b0 = b
    · subst h0
      have hf : ∀ w2 : World, (updateLoop api now bases w2).cache.items ("latest_rates_" ++ b0)
          = w2.cache.items ("latest_rates_" ++ b0) := by
        intro w2
        apply updateLoop_frame
        intro b2 hb2 hk
        have := append_left_cancel _ _ _ hk
        subst this
        exact absurd hb2 hnd.1
      unfold updateLoop
      simp only [hm, hf, cacheSet, called, CacheRepository.Set, if_true, Add]
    · have hb2 : b ∈ bases := by
        rcases List.mem_cons.1 hb with h | h
        · exact absurd h.symm h0
        · exact h
      unfold updateLoop
      cases api.GetAllLatestRates b0 <;>
        simp only [updateLoop_stored api now b m hm bases _ hnd.2 hb2]

/-! ## Facts about the historical series -/

/-- The result of `Get` depends only on the entry under the key. -/
theorem Get_fst_congr {α : Type} (c1 c2 : CacheRepository)
    (unmarshal : CacheValue → Except String α) (now : Int) (k : String)
    (h : c1.items k = c2.items k) : (c1.Get unmarshal now k).1 = (c2.Get unmarshal now k).1 := by
  unfold CacheRepository.Get
  rw [h]
  cases c2.items k with
  | none => rfl
  | some item =>
    simp only
    split <;> rfl

/-- The result of the historical resolution: the cached rate on a hit, the
provider's answer on a miss. -/
theorem getHistoricalRate_fst (api : ExchangeRepository) (now : Int) (from_ to_ date : String)
    (w : World) :
    (getHistoricalRate api now from_ to_ date w).1 =
      match (w.cache.Get unmarshalExchangeRate now
          ("rate_" ++ from_ ++ "_" ++ to_ ++ "_" ++ date)).1 with
      | .ok cachedRate => .ok cachedRate
      | .error _ => api.GetHistoricalRate from_ to_ date := by
  unfold getHistoricalRate
  simp only [cacheGet]
  cases (w.cache.Get unmarshalExchangeRate now
      ("rate_" ++ from_ ++ "_" ++ to_ ++ "_" ++ date)).1 with
  | ok r => rfl
  | error e =>
    simp only
    cases api.GetHistoricalRate from_ to_ date <;> rfl

/-- The historical resolution gives the same result in two states that agree on
the entry under its key. -/
theorem getHistoricalRate_fst_congr (api : ExchangeRepository) (now : Int)
    (from_ to_ date : String) (w1 w2 : World)
    (h : w1.cache.items ("rate_" ++ from_ ++ "_" ++ to_ ++ "_" ++ date)
      = w2.cache.items ("rate_" ++ from_ ++ "_" ++ to_ ++ "_" ++ date)) :
    (getHistoricalRate api now from_ to_ date w1).1
      = (getHistoricalRate api now from_ to_ date w2).1 := by
  rw [getHistoricalRate_fst, getHistoricalRate_fst,
    Get_fst_congr w1.cache w2.cache unmarshalExchangeRate now _ h]

/-- The historical resolution changes no entry under another key. -/
theorem getHistoricalRate_frame (api : ExchangeRepository) (now : Int)
    (from_ to_ date : String) (w : World) (k : String)
    (hk : k ≠ "rate_" ++ from_ ++ "_" ++ to_ ++ "_" ++ date) :
    (getHistoricalRate api now from_ to_ date w).2.cache.items k = w.cache.items k :=
  (resolve_shape now _ (api.GetHistoricalRate from_ to_ date)
    (Event.apiHistorical from_ to_ date) (24 * Hour) w _ rfl).1 k hk

/-- The calls of one historical resolution: one cache read, at most one provider
call. -/
theorem getHistoricalRate_trace (api : ExchangeRepository) (now : Int)
    (from_ to_ date : String) (w : World) :
    ∃ evs, (getHistoricalRate api now from_ to_ date w).2.trace = w.trace ++ evs ∧
      (evs.filter isCacheGet).length = 1 ∧ (evs.filter isApiCall).length ≤ 1 := by
  unfold getHistoricalRate
  simp only [cacheGet]
  cases (w.cache.Get unmarshalExchangeRate now
      ("rate_" ++ from_ ++ "_" ++ to_ ++ "_" ++ date)).1 with
  | ok r => exact ⟨_, rfl, by simp [isCacheGet], by simp [isApiCall]⟩
  | error e =>
    simp only
    cases api.GetHistoricalRate from_ to_ date with
    | error e2 =>
      exact ⟨[Event.cacheGet ("rate_" ++ from_ ++ "_" ++ to_ ++ "_" ++ date),
          Event.apiHistorical from_ to_ date],
        by simp [called], by simp [isCacheGet], by simp [isApiCall]⟩
    | ok r =>
      exact ⟨[Event.cacheGet ("rate_" ++ from_ ++ "_" ++ to_ ++ "_" ++ date),
          Event.apiHistorical from_ to_ date,
          Event.cacheSet ("rate_" ++ from_ ++ "_" ++ to_ ++ "_" ++ date) (24 * Hour)],
        by simp [called, cacheSet], by simp [isCacheGet], by simp [isApiCall]⟩

/-- Assigning under a key that is not in the map appends the entry. -/
theorem mapSet_new {α : Type} (m : List (String × α)) (key : String) (value : α)
    (h : key ∉ m.map (·.1)) : mapSet m key value = m ++ [(key, value)] := by
  unfold mapSet
  rw [if_neg]
  simp only [List.any_eq_true, beq_iff_eq, not_exists, not_and]
  intro e he hk
  exact h (List.mem_map.2 ⟨e, he, hk⟩)

/-- The loop of `GetHistoricalRates` over distinct days computes the series of the
specification. -/
theorem historicalLoop_eq (api : ExchangeRepository) (now : Int) (from_ to_ : String)
    (w : World) :
    ∀ (dates : List String) (acc : List (String × ExchangeRate)) (w2 : World),
      dates.Nodup → (∀ d ∈ dates, d ∉ acc.map (·.1)) →
      (∀ d ∈ dates, w2.cache.items ("rate_" ++ from_ ++ "_" ++ to_ ++ "_" ++ d)
        = w.cache.items ("rate_" ++ from_ ++ "_" ++ to_ ++ "_" ++ d)) →
      (historicalLoop api now from_ to_ dates acc w2).1
        = acc ++ resolvedRates api now from_ to_ w dates
  | [], acc, w2, _, _, _ => by simp [historicalLoop, resolvedRates]
  | date :: dates, acc, w2, hnd, hacc, hw => by
    rw [List.nodup_cons] at hnd
    have hc := getHistoricalRate_fst_congr api now from_ to_ date w2 w
      (hw date (List.mem_cons_self _ _))
    have hfr : ∀ d ∈ dates,
        (getHistoricalRate api now from_ to_ date w2).2.cache.items
            ("rate_" ++ from_ ++ "_" ++ to_ ++ "_" ++ d)
          = w.cache.items ("rate_" ++ from_ ++ "_" ++ to_ ++ "_" ++ d) := by
      intro d hd
      rw [getHistoricalRate_frame, hw d (List.mem_cons_of_mem _ hd)]
      intro hk
      have := append_left_cancel _ _ _ hk
      subst this
      exact hnd.1 hd
    unfold historicalLoop
    generalize hres : getHistoricalRate api now from_ to_ date w2 = res at hc hfr
    obtain ⟨r1, w3⟩ := res
    simp only at hc hfr
    cases r1 with
    | error e =>
      simp only
      rw [historicalLoop_eq api now from_ to_ w dates acc w3 hnd.2
        (fun d hd => hacc d (List.mem_cons_of_mem _ hd)) hfr]
      simp only [resolvedRates, List.filterMap_cons, ← hc]
    | ok rate =>
      simp only
      rw [mapSet_new acc date rate (hacc date (List.mem_cons_self _ _)),
        historicalLoop_eq api now from_ to_ w dates _ w3 hnd.2 ?_ hfr]
      · simp only [resolvedRates, List.filterMap_cons, ← hc, List.append_assoc,
          List.singleton_append]
      · intro d hd
        simp only [List.map_append, List.map_cons, List.map_nil, List.mem_append,
          List.mem_singleton, not_or]
        exact ⟨hacc d (List.mem_cons_of_mem _ hd), fun h => hnd.1 (h ▸ hd)⟩

/-- The calls of the loop of `GetHistoricalRates`: one cache read per day and at
most one provider call per day. -/
theorem historicalLoop_trace (api : ExchangeRepository) (now : Int) (from_ to_ : String) :
    ∀ (dates : List String) (acc : List (String × ExchangeRate)) (w2 : World),
      ∃ evs, (historicalLoop api now from_ to_ dates acc w2).2.trace = w2.trace ++ evs ∧
        (evs.filter isCacheGet).length = dates.length ∧
        (evs.filter isApiCall).length ≤ dates.length
  | [], acc, w2 => ⟨[], by simp [historicalLoop], rfl, le_refl _⟩
  | date :: dates, acc, w2 => by
    obtain ⟨e1, h1, h2, h3⟩ := getHistoricalRate_trace api now from_ to_ date w2
    unfold historicalLoop
    generalize hres : getHistoricalRate api now from_ to_ date w2 = res at h1
    obtain ⟨r1, w3⟩ := res
    simp only at h1
    cases r1 with
    | error e =>
      simp only
      obtain ⟨e2, g1, g2, g3⟩ := historicalLoop_trace api now from_ to_ dates acc w3
      refine ⟨e1 ++ e2, by rw [g1, h1, List.append_assoc], ?_, ?_⟩
      · rw [List.filter_append, List.length_append, h2, g2, List.length_cons]; omega
      · rw [List.filter_append, List.length_append, List.length_cons]; omega
    | ok rate =>
      simp only
      obtain ⟨e2, g1, g2, g3⟩ := historicalLoop_trace api now from_ to_ dates
        (mapSet acc date rate) w3
      refine ⟨e1 ++ e2, by rw [g1, h1, List.append_assoc], ?_, ?_⟩
      · rw [List.filter_append, List.length_append, h2, g2, List.length_cons]; omega
      · rw [List.filter_append, List.length_append, List.length_cons]; omega

/-- A date accepted by `ValidateDate` parses to an instant within the window. -/
theorem ValidateDate_ok_window (now : Int) (s : String) (h : ValidateDate now s = .ok ()) :
    ∃ t, Parse s = some t ∧ t ≤ now ∧ now - 90 * Day ≤ t := by
  obtain ⟨t, ht⟩ := ValidateDate_ok_Parse now s h
  rw [ValidateDate_of_Parse now s t ht] at h
  refine ⟨t, ht, ?_, ?_⟩
  · by_contra hc
    rw [if_pos (by omega)] at h
    exact absurd h (by simp)
  · by_contra hc
    split at h
    · exact absurd h (by simp)
    · rw [if_pos (by omega)] at h
      exact absurd h (by simp)

/-- A successful `GetDateRange` returns distinct entries, one more than the days
between the parsed start and end. -/
theorem GetDateRange_ok_inv (startDate endDate : String) (dates : List String)
    (h : GetDateRange startDate endDate = .ok dates) :
    ∃ (s e : Int) (n : Nat), Parse startDate = some s ∧ Parse endDate = some e ∧
      e = s + n * Day ∧ dates.length = n + 1 ∧ dates.Nodup := by
  have hne : isError (GetDateRange startDate endDate) = false := by rw [h]; rfl
  have hi := GetDateRange_isError_iff startDate endDate
  cases hs : Parse startDate with
  | none => rw [hi.2 (Or.inl hs)] at hne; exact absurd hne (by simp)
  | some s =>
    cases he : Parse endDate with
    | none => rw [hi.2 (Or.inr (Or.inl he))] at hne; exact absurd hne (by simp)
    | some e =>
      have hse : s ≤ e := by
        by_contra hc
        rw [hi.2 (Or.inr (Or.inr ⟨s, e, hs, he, by omega⟩))] at hne
        exact absurd hne (by simp)
      obtain ⟨n, hn, hr, hp⟩ := GetDateRange_of_Parse startDate endDate s e hs he hse
      rw [hr] at h
      have hd := Except.ok.inj h
      subst hd
      refine ⟨s, e, n, rfl, rfl, hn, by simp, ?_⟩
      refine List.Nodup.map_on ?_ (List.nodup_range _)
      intro i hi j hj hij
      rw [List.mem_range] at hi hj
      have h1 := hp i (by omega)
      have h2 := hp j (by omega)
      rw [hij, h2] at h1
      have h3 := mul_right_cancel₀ (show Day ≠ 0 by decide) (add_left_cancel (Option.some.inj h1))
      exact_mod_cast h3.symm

/-- What `GetHistoricalRates` returns once its checks pass. -/
theorem GetHistoricalRates_eq (api : ExchangeRepository) (now : Int)
    (from_ to_ startDate endDate : String) (w : World) (dates : List String)
    (hf : IsValidCurrency from_ = true) (ht : IsValidCurrency to_ = true)
    (hs : ValidateDate now startDate = .ok ()) (he : ValidateDate now endDate = .ok ())
    (hd : GetDateRange startDate endDate = .ok dates) :
    GetHistoricalRates api now from_ to_ startDate endDate w =
      (.ok ⟨from_, to_, (historicalLoop api now from_ to_ dates [] w).1, startDate, endDate⟩,
        (historicalLoop api now from_ to_ dates [] w).2) := by
  unfold GetHistoricalRates
  simp only [hf, ht, Bool.not_true, Bool.or_self, Bool.false_eq_true, if_false, hs, he, hd]

/-- What holds when `GetHistoricalRates` succeeds: every check passed. -/
theorem GetHistoricalRates_ok_inv (api : ExchangeRepository) (now : Int)
    (from_ to_ startDate endDate : String) (w : World)
    (h : isError (GetHistoricalRates api now from_ to_ startDate endDate w).1 = false) :
    IsValidCurrency from_ = true ∧ IsValidCurrency to_ = true ∧
    ValidateDate now startDate = .ok () ∧ ValidateDate now endDate = .ok () ∧
    ∃ dates, GetDateRange startDate endDate = .ok dates := by
  unfold GetHistoricalRates at h
  by_cases hc : (!IsValidCurrency from_ || !IsValidCurrency to_) = true
  · rw [if_pos hc] at h
    exact absurd h (by simp [isError])
  · rw [if_neg hc] at h
    simp only [Bool.or_eq_true, Bool.not_eq_true', not_or, Bool.not_eq_false] at hc
    refine ⟨hc.1, hc.2, ?_⟩
    cases hs : ValidateDate now startDate with
    | error e => rw [hs] at h; exact absurd h (by simp [isError])
    | ok u =>
      cases he : ValidateDate now endDate with
      | error e => rw [hs, he] at h; exact absurd h (by simp [isError])
      | ok u2 =>
        cases hd : GetDateRange startDate endDate with
        | error e => rw [hs, he, hd] at h; exact absurd h (by simp [isError])
        | ok dates => exact ⟨rfl, rfl, dates, rfl⟩

/-- Membership in the series of the specification. -/
theorem mem_resolvedRates (api : ExchangeRepository) (now : Int) (from_ to_ : String) (w : World)
    (dates : List String) (d : String) (r : ExchangeRate) :
    (d, r) ∈ resolvedRates api now from_ to_ w dates ↔
      d ∈ dates ∧ (getHistoricalRate api now from_ to_ d w).1 = .ok r := by
  unfold resolvedRates
  rw [List.mem_filterMap]
  constructor
  · rintro ⟨a, ha, h⟩
    cases hr : (getHistoricalRate api now from_ to_ a w).1 with
    | error e => rw [hr] at h; exact absurd h (by simp)
    | ok r2 =>
      rw [hr] at h
      simp only [Option.some.injEq, Prod.mk.injEq] at h
      obtain ⟨rfl, rfl⟩ := h
      exact ⟨ha, hr⟩
  · rintro ⟨hd, hr⟩
    exact ⟨d, hd, by rw [hr]⟩

/-- The keys of the series of the specification: the days whose resolution
succeeds, in order. -/
theorem resolvedRates_keys (api : ExchangeRepository) (now : Int) (from_ to_ : String)
    (w : World) : ∀ dates : List String,
    (resolvedRates api now from_ to_ w dates).map (·.1)
      = dates.filter (fun d => !isError (getHistoricalRate api now from_ to_ d w).1)
  | [] => rfl
  | d :: dates => by
    have ih := resolvedRates_keys api now from_ to_ w dates
    unfold resolvedRates at ih ⊢
    rw [List.filterMap_cons, List.filter_cons]
    cases hr : (getHistoricalRate api now from_ to_ d w).1 with
    | error e => simp only [isError, Bool.not_true, Bool.false_eq_true, if_false]; exact ih
    | ok r => simp only [isError, Bool.not_false, if_true, List.map_cons, ih]

/-- The series of the specification has at most one entry per day. -/
theorem resolvedRates_length (api : ExchangeRepository) (now : Int) (from_ to_ : String)
    (w : World) (dates : List String) :
    (resolvedRates api now from_ to_ w dates).length ≤ dates.length :=
  List.length_filterMap_le _ _

/-- `GetHistoricalRates` succeeds once its checks pass. -/
theorem GetHistoricalRates_ok (api : ExchangeRepository) (now : Int)
    (from_ to_ startDate endDate : String) (w : World)
    (hf : IsValidCurrency from_ = true) (ht : IsValidCurrency to_ = true)
    (hs : ValidateDate now startDate = .ok ()) (he : ValidateDate now endDate = .ok ())
    (hse : ∃ s e, Parse startDate = some s ∧ Parse endDate = some e ∧ s ≤ e) :
    isError (GetHistoricalRates api now from_ to_ startDate endDate w).1 = false := by
  obtain ⟨s, e, hps, hpe, hle⟩ := hse
  obtain ⟨n, _, hr, _⟩ := GetDateRange_of_Parse startDate endDate s e hps hpe hle
  rw [GetHistoricalRates_eq api now from_ to_ startDate endDate w _ hf ht hs he hr]
  rfl

/-! ## The claims -/

/-- C1: for a request with supported currencies whose rate resolution (latest
path for an empty date, historical path for a date that passes `ValidateDate`)
yields a rate `r`, `ConvertCurrency` succeeds with the amount (1 when the request
amount is 0) times `r.Rate`, echoes the currencies, and carries the rate, date and
timestamp of `r`. -/
theorem ConvertCurrency_result (api : ExchangeRepository) (now : Int) (req : ConversionRequest)
    (w : World) (r : ExchangeRate)
    (hf : IsValidCurrency req.From = true) (ht : IsValidCurrency req.To = true)
    (hres : (req.Date = "" ∧ (getLatestRate api now req.From req.To w).1 = .ok r) ∨
      (req.Date ≠ "" ∧ ValidateDate now req.Date = .ok () ∧
        (getHistoricalRate api now req.From req.To req.Date w).1 = .ok r)) :
    (ConvertCurrency api now req w).1 = .ok {
      Amount := (if req.Amount = 0 then 1 else req.Amount) * r.Rate
      FromCurrency := req.From
      ToCurrency := req.To
      Rate := r.Rate
      Date := r.Date
      Timestamp := r.Timestamp } := by
  unfold ConvertCurrency
  rw [if_neg (by simp [hf, ht])]
  rcases hres with ⟨hd, hr⟩ | ⟨hd, hv, hr⟩
  · simp only [hd, ne_eq, not_true_eq_false, if_false]
    generalize getLatestRate api now req.From req.To w = res at hr
    obtain ⟨r1, w1⟩ := res
    simp only at hr
    subst hr
    rfl
  · simp only [hd, ne_eq, not_false_eq_true, if_true, hv]
    generalize getHistoricalRate api now req.From req.To req.Date w = res at hr
    obtain ⟨r1, w1⟩ := res
    simp only at hr
    subst hr
    rfl

/-- Witness for C1: the unit test. From an empty cache the provider answers 83.25
for USD to INR; the amount 100 converts to 8325. -/
theorem ConvertCurrency_result_witness :
    (ConvertCurrency (mockAPI ⟨"USD", "INR", 83.25, 0, "2025-09-01"⟩ []) 0
        ⟨"USD", "INR", 100, ""⟩ ⟨NewCacheRepository, []⟩).1
      = .ok ⟨8325, "USD", "INR", 83.25, "2025-09-01", 0⟩ := by
  have h := ConvertCurrency_result (mockAPI ⟨"USD", "INR", 83.25, 0, "2025-09-01"⟩ []) 0
    ⟨"USD", "INR", 100, ""⟩ ⟨NewCacheRepository, []⟩ ⟨"USD", "INR", 83.25, 0, "2025-09-01"⟩
    (by decide) (by decide) (Or.inl ⟨rfl, by rfl⟩)
  rw [h]
  norm_num

/-- C2: when `from` or `to` is not a supported currency, `ConvertCurrency` fails
with the unsupported-currency error and touches neither the cache store nor the
provider: the cache and the trace of collaborator calls are unchanged. -/
theorem ConvertCurrency_unsupported (api : ExchangeRepository) (now : Int)
    (req : ConversionRequest) (w : World)
    (h : IsValidCurrency req.From = false ∨ IsValidCurrency req.To = false) :
    ConvertCurrency api now req w
      = (.error ("unsupported currency pair: " ++ req.From ++ " to " ++ req.To), w) := by
  unfold ConvertCurrency
  rw [if_pos (by rcases h with h | h <;> simp [h])]

/-- Witness for C2: the request USD to XYZ of the integration test. -/
theorem ConvertCurrency_unsupported_witness :
    ConvertCurrency (mockAPI ⟨"USD", "INR", 83.25, 0, "2025-09-01"⟩ []) 0
        ⟨"USD", "XYZ", 100, ""⟩ ⟨NewCacheRepository, []⟩
      = (.error "unsupported currency pair: USD to XYZ", ⟨NewCacheRepository, []⟩) :=
  ConvertCurrency_unsupported _ 0 ⟨"USD", "XYZ", 100, ""⟩ ⟨NewCacheRepository, []⟩
    (Or.inr (by decide))

/-- C3: with the real rate provider, for every cache state and every upstream
outcome, `ConvertCurrency` returns an error exactly when a currency is
unsupported or a non-empty date fails `ValidateDate`; `GetLatestRates` exactly
when the base is unsupported; `GetHistoricalRates` exactly when a currency is
unsupported, a date fails `ValidateDate`, or the start is after the end. -/
theorem resolver_errors_are_input_errors (up : Upstream) (now : Int) (w : World) :
    (∀ req : ConversionRequest,
      isError (ConvertCurrency (NewExchangeAPIRepository up now) now req w).1 = true ↔
        (IsValidCurrency req.From = false ∨ IsValidCurrency req.To = false ∨
          (req.Date ≠ "" ∧ isError (ValidateDate now req.Date) = true))) ∧
    (∀ baseCurrency : String,
      isError (GetLatestRates (NewExchangeAPIRepository up now) now baseCurrency w).1 = true ↔
        IsValidCurrency baseCurrency = false) ∧
    (∀ from_ to_ startDate endDate : String,
      isError (GetHistoricalRates (NewExchangeAPIRepository up now) now from_ to_ startDate
          endDate w).1 = true ↔
        (IsValidCurrency from_ = false ∨ IsValidCurrency to_ = false ∨
          isError (ValidateDate now startDate) = true ∨
          isError (ValidateDate now endDate) = true ∨
          ∃ s e, Parse startDate = some s ∧ Parse endDate = some e ∧ e < s)) := by
  refine ⟨?_, ?_, ?_⟩
  · intro req
    unfold ConvertCurrency
    by_cases hc : (!IsValidCurrency req.From || !IsValidCurrency req.To) = true
    · rw [if_pos hc]
      simp only [Bool.or_eq_true, Bool.not_eq_true'] at hc
      simp only [isError, true_iff]
      rcases hc with h | h
      · exact Or.inl h
      · exact Or.inr (Or.inl h)
    · rw [if_neg hc]
      simp only [Bool.or_eq_true, Bool.not_eq_true', not_or, Bool.not_eq_false] at hc
      simp only [hc.1, hc.2, Bool.true_eq_false, false_or]
      by_cases hd : req.Date = ""
      · simp only [hd, ne_eq, not_true_eq_false, if_false, false_and, iff_false,
          Bool.not_eq_true]
        have h := getLatestRate_real_ok up now now req.From req.To w
        generalize getLatestRate (NewExchangeAPIRepository up now) now req.From req.To w = res
          at h
        obtain ⟨r1, w1⟩ := res
        cases r1 with
        | error e => simp [isError] at h
        | ok r => rfl
      · simp only [ne_eq, hd, not_false_eq_true, if_true, true_and]
        cases hv : ValidateDate now req.Date with
        | error e => simp [isError]
        | ok u =>
          simp only [isError, Bool.false_eq_true, iff_false, Bool.not_eq_true]
          have h := getHistoricalRate_real_ok up now now req.From req.To req.Date w
          generalize getHistoricalRate (NewExchangeAPIRepository up now) now req.From req.To
            req.Date w = res at h
          obtain ⟨r1, w1⟩ := res
          cases r1 with
          | error e => simp [isError] at h
          | ok r => rfl
  · intro baseCurrency
    unfold GetLatestRates
    by_cases hc : IsValidCurrency baseCurrency = true
    · simp only [hc, Bool.not_true, Bool.false_eq_true, if_false, iff_false, Bool.not_eq_true]
      split
      · simp [isError]
      · obtain ⟨m, hm⟩ := GetAllLatestRates_ok (up.live baseCurrency (otherCurrencies baseCurrency))
          baseCurrency
        simp only [NewExchangeAPIRepository, hm]
        simp [isError]
    · simp only [Bool.not_eq_true] at hc
      simp [hc, isError]
  · intro from_ to_ startDate endDate
    unfold GetHistoricalRates
    by_cases hc : (!IsValidCurrency from_ || !IsValidCurrency to_) = true
    · rw [if_pos hc]
      simp only [Bool.or_eq_true, Bool.not_eq_true'] at hc
      simp only [isError, true_iff]
      rcases hc with h | h
      · exact Or.inl h
      · exact Or.inr (Or.inl h)
    · rw [if_neg hc]
      simp only [Bool.or_eq_true, Bool.not_eq_true', not_or, Bool.not_eq_false] at hc
      simp only [hc.1, hc.2, Bool.true_eq_false, false_or]
      cases hs : ValidateDate now startDate with
      | error e => simp [isError]
      | ok u =>
        cases he : ValidateDate now endDate with
        | error e => simp [isError]
        | ok u2 =>
          simp only [isError, Bool.false_eq_true, false_or]
          obtain ⟨s, hps⟩ := ValidateDate_ok_Parse now startDate hs
          obtain ⟨e, hpe⟩ := ValidateDate_ok_Parse now endDate he
          have hg := GetDateRange_isError_iff startDate endDate
          have hg2 : (Parse startDate = none ∨ Parse endDate = none ∨
              ∃ s e, Parse startDate = some s ∧ Parse endDate = some e ∧ e < s) ↔
              ∃ s e, Parse startDate = some s ∧ Parse endDate = some e ∧ e < s := by
            rw [hps, hpe]; simp
          rw [← hg2, ← hg]
          cases hr : GetDateRange startDate endDate with
          | error e => simp [isError]
          | ok dates => simp [isError]

/-- C4 (as amended): `GetLatestRate` never returns an error, and when the exchange
fails (request construction error, network error, unreadable or malformed body,
payload with success=false or an error object, or the key from+to missing from the
quotes) it returns the fallback rate: from and to echoed and the rate of the
static table for the pair (83.25 for USD to INR), or 1.0 for a pair that is not
tabulated. The status code of a response is not among the failures. -/
theorem GetLatestRate_fallback (res : HTTPResult ExchangeHostResponse) (now : Int)
    (from_ to_ : String) :
    (∃ r, GetLatestRate res now from_ to_ = .ok r) ∧
    (exchangeFailed res from_ to_ = true →
      GetLatestRate res now from_ to_ = .ok (getMockRate now from_ to_)) ∧
    (getMockRate now from_ to_).FromCurrency = from_ ∧
    (getMockRate now from_ to_).ToCurrency = to_ ∧
    (getMockRate now from_ to_).Rate = ((getMockRates from_).lookup to_).getD 1 ∧
    (getMockRate now "USD" "INR").Rate = 83.25 := by
  refine ⟨GetLatestRate_ok res now from_ to_, ?_, rfl, rfl, ?_, ?_⟩
  · intro h
    unfold GetLatestRate
    cases res with
    | response status apiResp =>
      simp only [exchangeFailed, Bool.or_eq_true, Bool.not_eq_true', Option.isNone_iff_eq_none]
        at h
      simp only
      split
      · rfl
      · rename_i hc
        simp only [Bool.or_eq_true, Bool.not_eq_true', not_or, Bool.not_eq_false,
          Bool.not_eq_true] at hc
        rcases h with (h | h) | h
        · rw [hc.1] at h; exact absurd h (by simp)
        · rw [hc.2] at h; exact absurd h (by simp)
        · rw [h]
    | _ => rfl
  · unfold getMockRate
    simp only
    cases (getMockRates from_).lookup to_
    · norm_num
    · rfl
  · simp only [getMockRate, getMockRates]
    rfl

/-- Witness for C4 (as amended): a network error on the pair USD, INR. -/
theorem GetLatestRate_fallback_witness :
    GetLatestRate .doError 0 "USD" "INR" = .ok (getMockRate 0 "USD" "INR") :=
  (GetLatestRate_fallback .doError 0 "USD" "INR").2.1 rfl

/-- C4 fails as stated: a response with status 500 whose body is a well-formed
success payload quoting USDINR at 1 is not answered with the fallback rate 83.25
but with the quoted rate. -/
theorem GetLatestRate_ignores_status :
    GetLatestRate (.response 500 ⟨true, 0, "USD", [("USDINR", 1)], none⟩) 0 "USD" "INR"
      = .ok ⟨"USD", "INR", 1, 0, "1970-01-01"⟩ ∧
    (getMockRate 0 "USD" "INR").Rate = 83.25 ∧
    GetLatestRate (.response 500 ⟨true, 0, "USD", [("USDINR", 1)], none⟩) 0 "USD" "INR"
      ≠ .ok (getMockRate 0 "USD" "INR") := by
  refine ⟨by rfl, by simp only [getMockRate, getMockRates]; rfl, ?_⟩
  intro h
  have h2 : GetLatestRate (.response 500 ⟨true, 0, "USD", [("USDINR", 1)], none⟩) 0 "USD" "INR"
      = .ok ⟨"USD", "INR", 1, 0, "1970-01-01"⟩ := by rfl
  rw [h2] at h
  have h3 := congrArg ExchangeRate.Rate (Except.ok.inj h)
  have h4 : (getMockRate 0 "USD" "INR").Rate = 83.25 := by
    simp only [getMockRate, getMockRates]; rfl
  rw [h4] at h3
  norm_num at h3

/-- C5 (as amended): after `Set(k, v, ttl)` at `t`, whatever was stored before,
`Get(k)` at `t2` returns a value equal to `v` when `t2 ≤ t + ttl` and `v` survives
the JSON round trip; when `t2 > t + ttl` it reports an error and leaves `k`
removed; entries under other keys are unchanged by both operations. This holds
for every `ttl` and `t2`, in particular for `ttl ≥ 0` and `t2 ≥ t`. -/
theorem Set_Get_roundtrip (c : CacheRepository) (k : String) (v : CacheValue) (ttl t t2 : Int) :
    (t2 ≤ t + ttl → jsonRoundTrip v = .ok v →
      ((c.Set t k v ttl).Get jsonRoundTrip t2 k).1 = .ok v) ∧
    (t + ttl < t2 →
      ((c.Set t k v ttl).Get jsonRoundTrip t2 k).1 = .error "key expired" ∧
      ((c.Set t k v ttl).Get jsonRoundTrip t2 k).2.items k = none) ∧
    (∀ k2, k2 ≠ k → (c.Set t k v ttl).items k2 = c.items k2 ∧
      ((c.Set t k v ttl).Get jsonRoundTrip t2 k).2.items k2 = c.items k2) := by
  rw [Get_Set_same]
  refine ⟨?_, ?_, ?_⟩
  · intro h hv
    rw [if_neg (by omega)]
    exact hv
  · intro h
    rw [if_pos h]
    simp [CacheRepository.Delete]
  · intro k2 hk
    split <;> simp [CacheRepository.Delete, CacheRepository.Set, hk]

/-- Witness for C5 (as amended): a rate stamped at the epoch, stored for one hour
in the empty store and read back at once. -/
theorem Set_Get_roundtrip_witness :
    ((NewCacheRepository.Set 0 "k" (.exchangeRate ⟨"USD", "INR", 83.25, 0, "1970-01-01"⟩) Hour).Get
      jsonRoundTrip 0 "k").1 = .ok (.exchangeRate ⟨"USD", "INR", 83.25, 0, "1970-01-01"⟩) :=
  (Set_Get_roundtrip NewCacheRepository "k" (.exchangeRate ⟨"USD", "INR", 83.25, 0, "1970-01-01"⟩)
    Hour 0 0).1 (by decide) (by rfl)

/-- C5 fails as stated: a rate whose timestamp is `time.Unix(1000000000000, 0)`,
in the year 33658, is stored for one hour and read back at once, within its
lifetime, and `Get` returns an error instead of the value, because the timestamp
cannot be marshalled. -/
theorem Get_after_Set_unmarshalable :
    Format (Unix 1000000000000) = "33658-09-27" ∧
    ((NewCacheRepository.Set 0 "k"
        (.exchangeRate ⟨"USD", "INR", 83.25, Unix 1000000000000, "33658-09-27"⟩) Hour).Get
      unmarshalExchangeRate 0 "k").1
      = .error "Time.MarshalJSON: year outside of range [0,9999]" ∧
    isError ((NewCacheRepository.Set 0 "k"
        (.exchangeRate ⟨"USD", "INR", 83.25, Unix 1000000000000, "33658-09-27"⟩) Hour).Get
      jsonRoundTrip 0 "k").1 = true :=
  ⟨by decide, by rfl, by rfl⟩

/-- C6: starting from a cache without an entry under `latest_rates_<base>`, for a
supported base, a first `GetLatestRates(base)` call at `t0` whose provider answers
the mapping `m`, followed by any number of further calls made no later than one
hour after `t0`: the provider is called exactly once, in the first call, and every
call returns `m`. -/
theorem GetLatestRates_single_fetch (baseCurrency : String) (api0 : ExchangeRepository)
    (t0 : Int) (rest : List (ExchangeRepository × Int)) (w : World)
    (m : List (String × Float64))
    (hb : IsValidCurrency baseCurrency = true)
    (hmiss : w.cache.items ("latest_rates_" ++ baseCurrency) = none)
    (hm : api0.GetAllLatestRates baseCurrency = .ok m)
    (hrest : ∀ p ∈ rest, p.2 ≤ t0 + Hour) :
    (latestRatesCalls baseCurrency ((api0, t0) :: rest) w).1.length = rest.length + 1 ∧
    (∀ r ∈ (latestRatesCalls baseCurrency ((api0, t0) :: rest) w).1,
      ∃ resp, r = .ok resp ∧ resp.Rates = m ∧ resp.BaseCurrency = baseCurrency) ∧
    (latestRatesCalls baseCurrency ((api0, t0) :: rest) w).2.trace
      = w.trace ++ [Event.cacheGet ("latest_rates_" ++ baseCurrency),
          Event.apiAllLatest baseCurrency,
          Event.cacheSet ("latest_rates_" ++ baseCurrency) Hour]
        ++ List.replicate rest.length (Event.cacheGet ("latest_rates_" ++ baseCurrency)) ∧
    ((latestRatesCalls baseCurrency ((api0, t0) :: rest) w).2.trace.drop w.trace.length).filter
      isApiCall = [Event.apiAllLatest baseCurrency] := by
  have h1 := GetLatestRates_miss api0 t0 baseCurrency w m hb hmiss hm
  have h2 := latestRatesCalls_hits baseCurrency m (t0 + Hour) hb rest
    { cache := w.cache.Set t0 ("latest_rates_" ++ baseCurrency) (.rates m) Hour,
      trace := w.trace ++ [Event.cacheGet ("latest_rates_" ++ baseCurrency),
        Event.apiAllLatest baseCurrency,
        Event.cacheSet ("latest_rates_" ++ baseCurrency) Hour] }
    (by simp [CacheRepository.Set, Add]) hrest
  have ht : (latestRatesCalls baseCurrency ((api0, t0) :: rest) w).2.trace
      = w.trace ++ [Event.cacheGet ("latest_rates_" ++ baseCurrency),
          Event.apiAllLatest baseCurrency,
          Event.cacheSet ("latest_rates_" ++ baseCurrency) Hour]
        ++ List.replicate rest.length (Event.cacheGet ("latest_rates_" ++ baseCurrency)) := by
    simp only [latestRatesCalls, h1, h2.2]
  refine ⟨?_, ?_, ht, ?_⟩
  · simp only [latestRatesCalls, h1, h2.1, List.length_cons, List.length_map]
  · intro r hr
    simp only [latestRatesCalls, h1, h2.1, List.mem_cons, List.mem_map] at hr
    rcases hr with rfl | ⟨p, _, rfl⟩
    · exact ⟨_, rfl, rfl, rfl⟩
    · exact ⟨_, rfl, rfl, rfl⟩
  · rw [ht, List.append_assoc, List.drop_left]
    simp [List.filter_cons, isApiCall, List.filter_replicate]

/-- Witness for C6: base USD from the empty cache; the first call at instant 0,
two more calls half an hour and one hour later. -/
theorem GetLatestRates_single_fetch_witness :
    ((latestRatesCalls "USD"
        [(mockAPI ⟨"USD", "INR", 83.25, 0, "1970-01-01"⟩ [("INR", 83.25)], 0),
         (mockAPI ⟨"USD", "INR", 84, 0, "1970-01-01"⟩ [("INR", 84)], 1800 * Second),
         (mockAPI ⟨"USD", "INR", 85, 0, "1970-01-01"⟩ [("INR", 85)], Hour)]
        ⟨NewCacheRepository, []⟩).2.trace.drop 0).filter isApiCall
      = [Event.apiAllLatest "USD"] :=
  (GetLatestRates_single_fetch "USD" (mockAPI ⟨"USD", "INR", 83.25, 0, "1970-01-01"⟩ [("INR", 83.25)])
    0 [(mockAPI ⟨"USD", "INR", 84, 0, "1970-01-01"⟩ [("INR", 84)], 1800 * Second),
       (mockAPI ⟨"USD", "INR", 85, 0, "1970-01-01"⟩ [("INR", 85)], Hour)]
    ⟨NewCacheRepository, []⟩ [("INR", 83.25)] (by decide) rfl rfl
    (by
      intro p hp
      simp only [List.mem_cons, List.mem_singleton, List.not_mem_nil, or_false] at hp
      rcases hp with rfl | rfl <;> decide)).2.2.2

/-- C7: single-rate resolution touches only its own cache key,
`rate_<from>_<to>_latest` for `getLatestRate` and `rate_<from>_<to>_<date>` for
`getHistoricalRate`. On a hit it returns the cached rate after one cache read and
no provider call. On a miss it makes one cache read, one call of the corresponding
provider method and one cache write of the answer under the same key, with a
lifetime of one hour (latest) or 24 hours (historical), and returns the answer. -/
theorem single_rate_resolution (api : ExchangeRepository) (now : Int)
    (from_ to_ date : String) (w : World) :
    ((∀ k, k ≠ "rate_" ++ from_ ++ "_" ++ to_ ++ "_latest" →
        (getLatestRate api now from_ to_ w).2.cache.items k = w.cache.items k) ∧
      (∀ r, (w.cache.Get unmarshalExchangeRate now
            ("rate_" ++ from_ ++ "_" ++ to_ ++ "_latest")).1 = .ok r →
        getLatestRate api now from_ to_ w = (.ok r, ⟨w.cache, w.trace ++
          [Event.cacheGet ("rate_" ++ from_ ++ "_" ++ to_ ++ "_latest")]⟩)) ∧
      (∀ r, isError (w.cache.Get unmarshalExchangeRate now
            ("rate_" ++ from_ ++ "_" ++ to_ ++ "_latest")).1 = true →
        api.GetLatestRate from_ to_ = .ok r →
        (getLatestRate api now from_ to_ w).1 = .ok r ∧
        (getLatestRate api now from_ to_ w).2.trace = w.trace ++
          [Event.cacheGet ("rate_" ++ from_ ++ "_" ++ to_ ++ "_latest"),
            Event.apiLatest from_ to_,
            Event.cacheSet ("rate_" ++ from_ ++ "_" ++ to_ ++ "_latest") Hour] ∧
        (getLatestRate api now from_ to_ w).2.cache.items
            ("rate_" ++ from_ ++ "_" ++ to_ ++ "_latest")
          = some ⟨.exchangeRate r, now + Hour⟩)) ∧
    ((∀ k, k ≠ "rate_" ++ from_ ++ "_" ++ to_ ++ "_" ++ date →
        (getHistoricalRate api now from_ to_ date w).2.cache.items k = w.cache.items k) ∧
      (∀ r, (w.cache.Get unmarshalExchangeRate now
            ("rate_" ++ from_ ++ "_" ++ to_ ++ "_" ++ date)).1 = .ok r →
        getHistoricalRate api now from_ to_ date w = (.ok r, ⟨w.cache, w.trace ++
          [Event.cacheGet ("rate_" ++ from_ ++ "_" ++ to_ ++ "_" ++ date)]⟩)) ∧
      (∀ r, isError (w.cache.Get unmarshalExchangeRate now
            ("rate_" ++ from_ ++ "_" ++ to_ ++ "_" ++ date)).1 = true →
        api.GetHistoricalRate from_ to_ date = .ok r →
        (getHistoricalRate api now from_ to_ date w).1 = .ok r ∧
        (getHistoricalRate api now from_ to_ date w).2.trace = w.trace ++
          [Event.cacheGet ("rate_" ++ from_ ++ "_" ++ to_ ++ "_" ++ date),
            Event.apiHistorical from_ to_ date,
            Event.cacheSet ("rate_" ++ from_ ++ "_" ++ to_ ++ "_" ++ date) (24 * Hour)] ∧
        (getHistoricalRate api now from_ to_ date w).2.cache.items
            ("rate_" ++ from_ ++ "_" ++ to_ ++ "_" ++ date)
          = some ⟨.exchangeRate r, now + 24 * Hour⟩)) :=
  ⟨resolve_shape now _ (api.GetLatestRate from_ to_) (Event.apiLatest from_ to_) Hour w _ rfl,
    resolve_shape now _ (api.GetHistoricalRate from_ to_ date)
      (Event.apiHistorical from_ to_ date) (24 * Hour) w _ rfl⟩

/-- Witness for C7: a miss on the empty cache for USD to INR; the answer is stored
under `rate_USD_INR_latest` until one hour after the call. -/
theorem single_rate_resolution_witness :
    (getLatestRate (mockAPI ⟨"USD", "INR", 83.25, 0, "1970-01-01"⟩ []) 0 "USD" "INR"
        ⟨NewCacheRepository, []⟩).1 = .ok ⟨"USD", "INR", 83.25, 0, "1970-01-01"⟩ ∧
    (getLatestRate (mockAPI ⟨"USD", "INR", 83.25, 0, "1970-01-01"⟩ []) 0 "USD" "INR"
        ⟨NewCacheRepository, []⟩).2.trace =
      [Event.cacheGet "rate_USD_INR_latest", Event.apiLatest "USD" "INR",
        Event.cacheSet "rate_USD_INR_latest" Hour] ∧
    (getLatestRate (mockAPI ⟨"USD", "INR", 83.25, 0, "1970-01-01"⟩ []) 0 "USD" "INR"
        ⟨NewCacheRepository, []⟩).2.cache.items "rate_USD_INR_latest"
      = some ⟨.exchangeRate ⟨"USD", "INR", 83.25, 0, "1970-01-01"⟩, Hour⟩ :=
  (single_rate_resolution (mockAPI ⟨"USD", "INR", 83.25, 0, "1970-01-01"⟩ []) 0 "USD" "INR"
    "2025-08-01" ⟨NewCacheRepository, []⟩).1.2.2 ⟨"USD", "INR", 83.25, 0, "1970-01-01"⟩
    (by rfl) rfl

/-- C8 (as amended): for every instant `now`, a date string in YYYY-MM-DD form
that names today or a day 1 to 89 days before today is accepted by `ValidateDate`;
the day exactly 90 days before today is accepted only when `now` is exactly
midnight: at midnight it is accepted, at every other instant of the day it is
rejected as more than 90 days in the past. -/
theorem ValidateDate_accepts_window (now : Int) (s : String) (k : Int)
    (hs : Parse s = some (dayStart now - k * Day)) (hk : 0 ≤ k ∧ k ≤ 90) :
    (k ≤ 89 ∨ now = dayStart now → ValidateDate now s = .ok ()) ∧
    (k = 90 ∧ now ≠ dayStart now →
      ValidateDate now s = .error "date cannot be more than 90 days in the past") := by
  have hb := dayStart_bounds now
  rw [ValidateDate_of_Parse now s _ hs]
  have hD : Day = 86400000000000 := by decide
  rw [hD] at hb ⊢
  constructor
  · intro h
    rw [if_neg (by rcases h with h1 | h1 <;> omega), if_neg (by rcases h with h1 | h1 <;> omega)]
  · rintro ⟨h1, h2⟩
    rw [if_neg (by omega), if_pos (by omega)]

/-- Witness for C8 (as amended): at noon of 2025-08-01 the date 2025-05-04, 89
days earlier, is accepted; the date 2025-05-03, 90 days before 2025-08-01, is
accepted at midnight of 2025-08-01 and rejected one nanosecond later. -/
theorem ValidateDate_accepts_window_witness :
    ValidateDate (Date 2025 8 1 + 12 * Hour) "2025-05-04" = .ok () ∧
    ValidateDate (Date 2025 8 1) "2025-05-03" = .ok () ∧
    ValidateDate (Date 2025 8 1 + 1) "2025-05-03"
      = .error "date cannot be more than 90 days in the past" :=
  ⟨(ValidateDate_accepts_window (Date 2025 8 1 + 12 * Hour) "2025-05-04" 89 (by decide)
      ⟨by decide, by decide⟩).1 (Or.inl (by decide)),
   (ValidateDate_accepts_window (Date 2025 8 1) "2025-05-03" 90 (by decide)
      ⟨by decide, by decide⟩).1 (Or.inr (by decide)),
   (ValidateDate_accepts_window (Date 2025 8 1 + 1) "2025-05-03" 90 (by decide)
      ⟨by decide, by decide⟩).2 ⟨by decide, by decide⟩⟩

/-- C8 fails as stated: at noon of 2025-08-01 the string 2025-05-03 names the day
exactly 90 days before today, and `ValidateDate` rejects it. -/
theorem day_90_rejected :
    Parse "2025-05-03" = some (dayStart (Date 2025 8 1 + 12 * Hour) - 90 * Day) ∧
    ValidateDate (Date 2025 8 1 + 12 * Hour) "2025-05-03"
      = .error "date cannot be more than 90 days in the past" :=
  ⟨by decide, by rfl⟩

/-- C9: for every instant `now`, `ValidateDate` returns an error for the empty
string, for a string that does not parse as YYYY-MM-DD, for a date strictly after
`now`, and for a date 91 or more days before today. -/
theorem ValidateDate_rejects (now : Int) (s : String)
    (h : s = "" ∨ Parse s = none ∨
      ∃ t, Parse s = some t ∧ (now < t ∨ t ≤ dayStart now - 91 * Day)) :
    isError (ValidateDate now s) = true := by
  rcases h with rfl | h | ⟨t, ht, h⟩
  · rfl
  · unfold ValidateDate
    rw [h]
    split <;> rfl
  · have hb := dayStart_bounds now
    rw [ValidateDate_of_Parse now s t ht]
    have hD : Day = 86400000000000 := by decide
    rw [hD] at hb h ⊢
    rcases h with h | h
    · rw [if_pos h]; rfl
    · by_cases h2 : now < t
      · rw [if_pos h2]; rfl
      · rw [if_neg h2, if_pos (by omega)]; rfl

/-- Witness for C9: at noon of 2025-08-01 the empty string, the string 01-08-2025,
tomorrow 2025-08-02, and 2025-05-02, 91 days before today, are all rejected. -/
theorem ValidateDate_rejects_witness :
    isError (ValidateDate (Date 2025 8 1 + 12 * Hour) "") = true ∧
    isError (ValidateDate (Date 2025 8 1 + 12 * Hour) "01-08-2025") = true ∧
    isError (ValidateDate (Date 2025 8 1 + 12 * Hour) "2025-08-02") = true ∧
    isError (ValidateDate (Date 2025 8 1 + 12 * Hour) "2025-05-02") = true :=
  ⟨ValidateDate_rejects (Date 2025 8 1 + 12 * Hour) "" (Or.inl rfl),
    ValidateDate_rejects (Date 2025 8 1 + 12 * Hour) "01-08-2025" (Or.inr (Or.inl (by decide))),
    ValidateDate_rejects (Date 2025 8 1 + 12 * Hour) "2025-08-02"
      (Or.inr (Or.inr ⟨Date 2025 8 2, by decide, Or.inl (by decide)⟩)),
    ValidateDate_rejects (Date 2025 8 1 + 12 * Hour) "2025-05-02"
      (Or.inr (Or.inr ⟨Date 2025 5 2, by decide, Or.inr (by decide)⟩))⟩

/-- C10: `GetDateRange` fails exactly when a date does not parse or the start is
after the end; otherwise it returns one entry per calendar day from start to end,
ascending and without gaps or duplicates, the first being the start, the last the
end, as many as the days between plus one. The range 2025-08-01 to 2025-08-03 has
three entries and the reversed range fails. -/
theorem GetDateRange_spec (startDate endDate : String) :
    (isError (GetDateRange startDate endDate) = true ↔
      (Parse startDate = none ∨ Parse endDate = none ∨
        ∃ s e, Parse startDate = some s ∧ Parse endDate = some e ∧ e < s)) ∧
    (∀ s e, Parse startDate = some s → Parse endDate = some e → s ≤ e →
      ∃ (n : Nat) (dates : List String), e = s + n * Day ∧
        GetDateRange startDate endDate = .ok dates ∧ dates.length = n + 1 ∧
        (∀ (i : Nat) (h : i < dates.length),
          Parse (dates.get ⟨i, h⟩) = some (s + (i : Int) * Day)) ∧
        dates.head? = some startDate ∧ dates.getLast? = some endDate ∧ dates.Nodup) ∧
    GetDateRange "2025-08-01" "2025-08-03" = .ok ["2025-08-01", "2025-08-02", "2025-08-03"] ∧
    isError (GetDateRange "2025-08-03" "2025-08-01") = true := by
  refine ⟨?_, ?_, ?_, ?_⟩
  · cases hs : Parse startDate with
    | none => simp [GetDateRange, hs, isError]
    | some s =>
      cases he : Parse endDate with
      | none => simp [GetDateRange, hs, he, isError]
      | some e =>
        by_cases hse : e < s
        · simp [GetDateRange, hs, he, isError, After, hse]
        · simp [GetDateRange, hs, he, isError, After, hse]
  · intro s e hs he hse
    obtain ⟨n, hn, hr, hp⟩ := GetDateRange_of_Parse startDate endDate s e hs he hse
    have hget : ∀ (i : Nat) (h : i < ((List.range (n + 1)).map
        (fun (i : Nat) => Format (s + (i : Int) * Day))).length),
        ((List.range (n + 1)).map (fun (i : Nat) => Format (s + (i : Int) * Day))).get ⟨i, h⟩
          = Format (s + (i : Int) * Day) := by
      intro i h
      simp
    refine ⟨n, _, hn, hr, by simp, ?_, ?_, ?_, ?_⟩
    · intro i h
      rw [hget i h]
      exact hp i (by simp at h; omega)
    · rw [List.range_succ_eq_map]
      simp only [List.map_cons, List.head?_cons, Nat.cast_zero, zero_mul, add_zero]
      rw [Format_Parse startDate s hs]
    · rw [List.range_succ, List.map_append, List.map_singleton, List.getLast?_concat, ← hn,
        Format_Parse endDate e he]
    · rw [List.nodup_iff_injective_get]
      intro a b hab
      have ha := hp a.1 (by have := a.2; simp at this; omega)
      have hb := hp b.1 (by have := b.2; simp at this; omega)
      rw [← hget a.1 a.2, ← hget b.1 b.2] at *
      have hab2 : ((List.range (n + 1)).map
          (fun (i : Nat) => Format (s + (i : Int) * Day))).get ⟨a.1, a.2⟩
          = ((List.range (n + 1)).map
            (fun (i : Nat) => Format (s + (i : Int) * Day))).get ⟨b.1, b.2⟩ := hab
      rw [hab2, hb] at ha
      have h3 := mul_right_cancel₀ (show Day ≠ 0 by decide) (add_left_cancel (Option.some.inj ha))
      exact Fin.ext (by exact_mod_cast h3.symm)
  · obtain ⟨n, hn, hr, _⟩ := GetDateRange_of_Parse "2025-08-01" "2025-08-03"
      (Date 2025 8 1) (Date 2025 8 3) (by decide) (by decide) (by decide)
    have hn2 : n = 2 := by
      have h1 : Date 2025 8 3 = 1754179200000000000 := by decide
      have h2 : Date 2025 8 1 = 1754006400000000000 := by decide
      have hD : Day = 86400000000000 := by decide
      rw [h1, h2, hD] at hn
      omega
    subst hn2
    rw [hr]
    rfl
  · decide

/-- Witness for C10: the general part at the range 2025-08-01 to 2025-08-03. -/
theorem GetDateRange_spec_witness :
    ∃ (n : Nat) (dates : List String), Date 2025 8 3 = Date 2025 8 1 + n * Day ∧
      GetDateRange "2025-08-01" "2025-08-03" = .ok dates ∧ dates.length = n + 1 ∧
      (∀ (i : Nat) (h : i < dates.length),
        Parse (dates.get ⟨i, h⟩) = some (Date 2025 8 1 + (i : Int) * Day)) ∧
      dates.head? = some "2025-08-01" ∧ dates.getLast? = some "2025-08-03" ∧ dates.Nodup :=
  (GetDateRange_spec "2025-08-01" "2025-08-03").2.1 (Date 2025 8 1) (Date 2025 8 3)
    (by decide) (by decide) (by decide)

/-- C11: for supported currencies and dates start ≤ end that both pass
`ValidateDate`, `GetHistoricalRates` succeeds and echoes from, to, start and end.
Its rates are the series with one entry for every day of `GetDateRange(start,
end)` whose single-rate resolution succeeds, the entry being the rate resolved for
that day; a day whose resolution fails is left out and the other days are kept,
so when no resolution fails the keys are exactly the days of the range. -/
theorem GetHistoricalRates_series (api : ExchangeRepository) (now : Int)
    (from_ to_ startDate endDate : String) (w : World)
    (hf : IsValidCurrency from_ = true) (ht : IsValidCurrency to_ = true)
    (hs : ValidateDate now startDate = .ok ()) (he : ValidateDate now endDate = .ok ())
    (hse : ∃ s e, Parse startDate = some s ∧ Parse endDate = some e ∧ s ≤ e) :
    ∃ dates resp, GetDateRange startDate endDate = .ok dates ∧
      (GetHistoricalRates api now from_ to_ startDate endDate w).1 = .ok resp ∧
      resp.FromCurrency = from_ ∧ resp.ToCurrency = to_ ∧
      resp.StartDate = startDate ∧ resp.EndDate = endDate ∧
      resp.Rates = resolvedRates api now from_ to_ w dates ∧
      (∀ d r, (d, r) ∈ resp.Rates ↔
        d ∈ dates ∧ (getHistoricalRate api now from_ to_ d w).1 = .ok r) ∧
      (resp.Rates.map (·.1)).Nodup ∧
      resp.Rates.map (·.1)
        = dates.filter (fun d => !isError (getHistoricalRate api now from_ to_ d w).1) ∧
      ((∀ d ∈ dates, isError (getHistoricalRate api now from_ to_ d w).1 = false) →
        resp.Rates.map (·.1) = dates) := by
  obtain ⟨s, e, hps, hpe, hle⟩ := hse
  obtain ⟨n, _, hr, _⟩ := GetDateRange_of_Parse startDate endDate s e hps hpe hle
  obtain ⟨_, _, _, _, _, _, _, hnd⟩ := GetDateRange_ok_inv startDate endDate _ hr
  have hq := GetHistoricalRates_eq api now from_ to_ startDate endDate w _ hf ht hs he hr
  have hl := historicalLoop_eq api now from_ to_ w _ [] w hnd (by simp) (fun _ _ => rfl)
  rw [List.nil_append] at hl
  have hk := resolvedRates_keys api now from_ to_ w
    ((List.range (n + 1)).map (fun (i : Nat) => Format (s + (i : Int) * Day)))
  refine ⟨_, _, hr, by rw [hq], rfl, rfl, rfl, rfl, hl, ?_, ?_, ?_, ?_⟩
  · intro d r
    simp only [hl]
    exact mem_resolvedRates api now from_ to_ w _ d r
  · simp only [hl, hk]
    exact hnd.filter _
  · simp only [hl, hk]
  · intro hall
    simp only [hl, hk]
    rw [List.filter_eq_self]
    intro d hd
    rw [hall d hd]
    rfl

/-- Witness for C11: at midnight of 2025-08-01, the range 2025-07-01 to 2025-07-03
from the empty cache against a provider that fails on 2025-07-02: the series has
the first and the third day. -/
theorem GetHistoricalRates_series_witness :
    ∃ resp,
      (GetHistoricalRates (failingOn "2025-07-02" ⟨"USD", "INR", 83.25, 0, "2025-07-01"⟩)
        (Date 2025 8 1) "USD" "INR" "2025-07-01" "2025-07-03" ⟨NewCacheRepository, []⟩).1
        = .ok resp ∧
      resp.Rates.map (·.1) = ["2025-07-01", "2025-07-03"] := by
  obtain ⟨dates, resp, h1, h2, _, _, _, _, _, _, _, h3, _⟩ := GetHistoricalRates_series
    (failingOn "2025-07-02" ⟨"USD", "INR", 83.25, 0, "2025-07-01"⟩) (Date 2025 8 1)
    "USD" "INR" "2025-07-01" "2025-07-03" ⟨NewCacheRepository, []⟩ (by decide) (by decide)
    (by rfl) (by rfl) ⟨Date 2025 7 1, Date 2025 7 3, by decide, by decide, by decide⟩
  obtain ⟨n, hn, hr, _⟩ := GetDateRange_of_Parse "2025-07-01" "2025-07-03"
    (Date 2025 7 1) (Date 2025 7 3) (by decide) (by decide) (by decide)
  have hn2 : n = 2 := by
    have e1 : Date 2025 7 3 = 1751500800000000000 := by decide
    have e2 : Date 2025 7 1 = 1751328000000000000 := by decide
    have hD : Day = 86400000000000 := by decide
    rw [e1, e2, hD] at hn
    omega
  subst hn2
  rw [hr] at h1
  have hd := Except.ok.inj h1
  subst hd
  refine ⟨resp, h2, ?_⟩
  rw [h3]
  decide

/-- C12: `IsValidCurrency` is true exactly on the five strings USD, INR, EUR, JPY
and GBP; the comparison is exact, so CAD, AUD, the lower-case usd and the empty
string are rejected. -/
theorem IsValidCurrency_iff (code : String) :
    (IsValidCurrency code = true ↔ code ∈ ["USD", "INR", "EUR", "JPY", "GBP"]) ∧
    IsValidCurrency "CAD" = false ∧ IsValidCurrency "AUD" = false ∧
    IsValidCurrency "usd" = false ∧ IsValidCurrency "" = false :=
  ⟨IsValidCurrency_mem code, by decide, by decide, by decide, by decide⟩

/-- C13 (as amended): for supported currencies A and B, from an empty cache and
for every upstream outcome, `ConvertCurrency(A, B, 1)` without a date succeeds.
The rate it returns is the fallback rate, strictly positive, when the upstream
call fails, and otherwise the quote the upstream sent for A+B, unchanged. -/
theorem ConvertCurrency_rate (up : Upstream) (now : Int) (a b : String)
    (ha : IsValidCurrency a = true) (hb : IsValidCurrency b = true) :
    ∃ resp, (ConvertCurrency (NewExchangeAPIRepository up now) now ⟨a, b, 1, ""⟩
        ⟨NewCacheRepository, []⟩).1 = .ok resp ∧
      (exchangeFailed (up.live a b) a b = true →
        resp.Rate = (getMockRate now a b).Rate ∧ 0 < resp.Rate) ∧
      (exchangeFailed (up.live a b) a b = false → quoted (up.live a b) a b = some resp.Rate) := by
  obtain ⟨r, hr, h1, h2⟩ := GetLatestRate_rate (up.live a b) now a b
  refine ⟨_, ConvertCurrency_empty_cache (NewExchangeAPIRepository up now) now a b 1 r ha hb hr,
    ?_, h2⟩
  intro hf
  simp only
  rw [h1 hf]
  exact ⟨rfl, getMockRate_pos now a b⟩

/-- Witness for C13 (as amended): USD to INR with the upstream unreachable. -/
theorem ConvertCurrency_rate_witness :
    ∃ resp, (ConvertCurrency (NewExchangeAPIRepository ⟨fun _ _ => .doError, fun _ _ _ => .doError⟩
        0) 0 ⟨"USD", "INR", 1, ""⟩ ⟨NewCacheRepository, []⟩).1 = .ok resp ∧
      resp.Rate = (getMockRate 0 "USD" "INR").Rate ∧ 0 < resp.Rate := by
  obtain ⟨resp, h1, h2, _⟩ := ConvertCurrency_rate ⟨fun _ _ => .doError, fun _ _ _ => .doError⟩ 0
    "USD" "INR" (by decide) (by decide)
  exact ⟨resp, h1, h2 rfl⟩

/-- C13 fails as stated: the upstream answers a success payload quoting USDINR at
0, and `ConvertCurrency(USD, INR, 1)` from the empty cache succeeds with rate 0,
which is not strictly positive. -/
theorem ConvertCurrency_zero_quote :
    (ConvertCurrency (NewExchangeAPIRepository
        ⟨fun _ _ => .response 200 ⟨true, 0, "USD", [("USDINR", 0)], none⟩, fun _ _ _ => .doError⟩ 0)
      0 ⟨"USD", "INR", 1, ""⟩ ⟨NewCacheRepository, []⟩).1
      = .ok ⟨0, "USD", "INR", 0, "1970-01-01", 0⟩ ∧ ¬ ((0 : Float64) < 0) := by
  refine ⟨?_, by norm_num⟩
  rw [ConvertCurrency_empty_cache _ 0 "USD" "INR" 1 ⟨"USD", "INR", 0, 0, "1970-01-01"⟩
    (by decide) (by decide) (by rfl)]
  norm_num

/-- C14 (as amended): for a supported base, on a cache miss `GetLatestRates(base)`
succeeds. When the upstream call gives no usable payload, the key set of the
returned mapping is exactly the supported currencies other than base, four keys.
When the upstream answers a success payload, the keys are what the upstream sent:
the quote keys of at least six bytes, each without its first three bytes (stated
for payloads in which that cut falls between two characters of every such key, as
it does in every ASCII key); they are the supported currencies other than base
when the quote keys are base+c for each of them. -/
theorem GetLatestRates_keys (up : Upstream) (now : Int) (baseCurrency : String) (w : World)
    (hb : IsValidCurrency baseCurrency = true)
    (hmiss : isError (w.cache.Get unmarshalRates now ("latest_rates_" ++ baseCurrency)).1
      = true) :
    ∃ resp, (GetLatestRates (NewExchangeAPIRepository up now) now baseCurrency w).1 = .ok resp ∧
      (payloadFailed (up.live baseCurrency (otherCurrencies baseCurrency)) = true →
        (resp.Rates.map (·.1)).length = 4 ∧
        ∀ k, k ∈ resp.Rates.map (·.1) ↔ (IsValidCurrency k = true ∧ k ≠ baseCurrency)) ∧
      (∀ status apiResp,
        up.live baseCurrency (otherCurrencies baseCurrency) = .response status apiResp →
        payloadFailed (up.live baseCurrency (otherCurrencies baseCurrency)) = false →
        ((∀ x ∈ apiResp.Quotes.map (·.1), 6 ≤ len x → startsChar x.data 3 = true) →
          ∀ k, k ∈ resp.Rates.map (·.1) ↔
            ∃ x ∈ apiResp.Quotes.map (·.1), 6 ≤ len x ∧ String.mk (sliceFrom x.data 3) = k) ∧
        (apiResp.Quotes.map (·.1)
            = ((SupportedCurrencies.map (·.1)).filter (· != baseCurrency)).map
              (baseCurrency ++ ·) →
          ∀ k, k ∈ resp.Rates.map (·.1) ↔ (IsValidCurrency k = true ∧ k ≠ baseCurrency))) := by
  obtain ⟨m, hm⟩ := GetAllLatestRates_ok
    (up.live baseCurrency (otherCurrencies baseCurrency)) baseCurrency
  have hr := GetLatestRates_on_miss (NewExchangeAPIRepository up now) now baseCurrency w m hb
    hmiss hm
  have he := GetAllLatestRates_eq (up.live baseCurrency (otherCurrencies baseCurrency))
    baseCurrency
  refine ⟨_, hr, ?_, ?_⟩
  · intro hf
    rw [he.1 hf] at hm
    cases hm
    exact getMockRates_keys baseCurrency hb
  · intro status apiResp h1 h2
    rw [he.2 status apiResp h1 h2] at hm
    cases hm
    have hk : ∀ k, k ∈ (apiResp.Quotes.foldl (fun rates e =>
        if len e.1 ≥ 6 then mapSet rates (String.mk (sliceFrom e.1.data 3)) e.2
        else rates) []).map (·.1) ↔
        ∃ x ∈ apiResp.Quotes.map (·.1), 6 ≤ len x ∧ String.mk (sliceFrom x.data 3) = k := by
      intro k
      rw [quotes_fold_keys]
      simp only [List.map_nil, List.not_mem_nil, false_or, List.mem_map, exists_exists_and_eq_and]
    refine ⟨fun _ => hk, ?_⟩
    intro hq k
    rw [hk k, hq]
    exact honoured_keys baseCurrency hb k

/-- Witness for C14 (as amended): base USD from the empty cache with the upstream
unreachable. -/
theorem GetLatestRates_keys_witness :
    ∃ resp, (GetLatestRates (NewExchangeAPIRepository
        ⟨fun _ _ => .doError, fun _ _ _ => .doError⟩ 0) 0 "USD" ⟨NewCacheRepository, []⟩).1
        = .ok resp ∧
      (resp.Rates.map (·.1)).length = 4 ∧
      ∀ k, k ∈ resp.Rates.map (·.1) ↔ (IsValidCurrency k = true ∧ k ≠ "USD") := by
  obtain ⟨resp, h1, h2, _⟩ := GetLatestRates_keys ⟨fun _ _ => .doError, fun _ _ _ => .doError⟩ 0
    "USD" ⟨NewCacheRepository, []⟩ (by decide) (by rfl)
  exact ⟨resp, h1, h2 rfl⟩

/-- C14 fails as stated: the upstream answers the request for base USD with a
success payload quoting only USDCAD; on a cache miss `GetLatestRates(USD)` returns
a mapping whose only key is CAD, a code outside the supported set. -/
theorem GetLatestRates_foreign_key :
    (GetLatestRates (NewExchangeAPIRepository
        ⟨fun _ _ => .response 200 ⟨true, 0, "USD", [("USDCAD", 1.36)], none⟩,
          fun _ _ _ => .doError⟩ 0) 0 "USD" ⟨NewCacheRepository, []⟩).1
      = .ok ⟨"USD", [("CAD", 1.36)], 0, "1970-01-01"⟩ ∧
    IsValidCurrency "CAD" = false ∧ IsValidCurrency "USD" = true := by
  refine ⟨?_, by decide, by decide⟩
  rw [GetLatestRates_on_miss _ 0 "USD" _ [("CAD", 1.36)] (by decide) (by rfl) (by rfl)]
  rfl

/-- C15: one run of `updateAllRates` calls the provider's `GetAllLatestRates` once
for each of the five supported currencies as base, the list it iterates being
exactly the supported set; for every base whose call succeeds it stores the
returned mapping under `latest_rates_<base>` with expiry one hour after the run,
whatever was stored there; a base whose call fails is skipped, its entry left as
it was, without stopping the remaining bases; no other cache key is modified. -/
theorem updateAllRates_spec (api : ExchangeRepository) (now : Int) (w : World) :
    (∀ c, c ∈ ["USD", "EUR", "GBP", "INR", "JPY"] ↔ IsValidCurrency c = true) ∧
    ((updateAllRates api now w).trace.drop w.trace.length).filter isApiCall
      = ["USD", "EUR", "GBP", "INR", "JPY"].map Event.apiAllLatest ∧
    (∀ b m, IsValidCurrency b = true → api.GetAllLatestRates b = .ok m →
      (updateAllRates api now w).cache.items ("latest_rates_" ++ b)
        = some ⟨.rates m, now + Hour⟩ ∧
      Event.cacheSet ("latest_rates_" ++ b) Hour ∈ (updateAllRates api now w).trace) ∧
    (∀ b, IsValidCurrency b = true → isError (api.GetAllLatestRates b) = true →
      (updateAllRates api now w).cache.items ("latest_rates_" ++ b)
        = w.cache.items ("latest_rates_" ++ b)) ∧
    (∀ k, (∀ b, IsValidCurrency b = true → k ≠ "latest_rates_" ++ b) →
      (updateAllRates api now w).cache.items k = w.cache.items k) := by
  have hl : ∀ c, c ∈ ["USD", "EUR", "GBP", "INR", "JPY"] ↔ IsValidCurrency c = true := by
    intro c
    rw [IsValidCurrency_mem]
    simp only [List.mem_cons, List.mem_singleton, List.not_mem_nil, or_false]
    tauto
  have ht := updateLoop_trace api now ["USD", "EUR", "GBP", "INR", "JPY"] w
  refine ⟨hl, ?_, ?_, ?_, ?_⟩
  · unfold updateAllRates
    rw [ht, List.drop_left, refreshEvents_calls]
  · intro b m hb hm
    refine ⟨updateLoop_stored api now b m hm _ w (by decide) ((hl b).2 hb), ?_⟩
    unfold updateAllRates
    rw [ht]
    apply List.mem_append_right
    rw [List.mem_flatMap]
    exact ⟨b, (hl b).2 hb, by simp [refreshEvents, hm]⟩
  · intro b _ he
    apply updateLoop_frame
    intro b2 _ hk
    have := append_left_cancel _ _ _ hk
    subst this
    exact he
  · intro k hk
    apply updateLoop_frame
    intro b2 hb2 hk2
    exact absurd hk2 (hk b2 ((hl b2).1 hb2))

/-- Witness for C15: one run from the empty cache against a provider that answers
every base with the same mapping stores it under `latest_rates_USD`. -/
theorem updateAllRates_spec_witness :
    (updateAllRates (mockAPI ⟨"USD", "INR", 83.25, 0, "1970-01-01"⟩ [("INR", 83.25)]) 0
        ⟨NewCacheRepository, []⟩).cache.items ("latest_rates_" ++ "USD")
      = some ⟨.rates [("INR", 83.25)], 0 + Hour⟩ :=
  ((updateAllRates_spec (mockAPI ⟨"USD", "INR", 83.25, 0, "1970-01-01"⟩ [("INR", 83.25)]) 0
    ⟨NewCacheRepository, []⟩).2.2.1 "USD" [("INR", 83.25)] (by decide) rfl).1

/-- C16: whenever `GetHistoricalRates` succeeds, the expanded date range has at
most 91 days, so the call makes at most 91 single-rate resolutions (one cache read
each), at most 91 provider calls, and returns at most 91 entries. `GetDateRange`
itself sets no such bound: the range over the year 2024 has 366 entries. -/
theorem GetHistoricalRates_bound (api : ExchangeRepository) (now : Int)
    (from_ to_ startDate endDate : String) (w : World)
    (h : isError (GetHistoricalRates api now from_ to_ startDate endDate w).1 = false) :
    (∃ dates resp evs, GetDateRange startDate endDate = .ok dates ∧ dates.length ≤ 91 ∧
      (GetHistoricalRates api now from_ to_ startDate endDate w).1 = .ok resp ∧
      resp.Rates.length ≤ 91 ∧
      (GetHistoricalRates api now from_ to_ startDate endDate w).2.trace = w.trace ++ evs ∧
      (evs.filter isCacheGet).length = dates.length ∧
      (evs.filter isApiCall).length ≤ 91) ∧
    (∃ dates, GetDateRange "2024-01-01" "2024-12-31" = .ok dates ∧ dates.length = 366) := by
  constructor
  · obtain ⟨hf, ht, hs, he, dates, hd⟩ :=
      GetHistoricalRates_ok_inv api now from_ to_ startDate endDate w h
    obtain ⟨s, e, n, hps, hpe, hn, hlen, hnd⟩ := GetDateRange_ok_inv startDate endDate dates hd
    obtain ⟨s2, hs2, _, hs4⟩ := ValidateDate_ok_window now startDate hs
    obtain ⟨e2, he2, he3, _⟩ := ValidateDate_ok_window now endDate he
    rw [hps] at hs2
    rw [hpe] at he2
    cases hs2
    cases he2
    have hb : dates.length ≤ 91 := by
      have hD : Day = 86400000000000 := by decide
      rw [hD] at hn hs4
      omega
    have hq := GetHistoricalRates_eq api now from_ to_ startDate endDate w dates hf ht hs he hd
    have hl := historicalLoop_eq api now from_ to_ w dates [] w hnd (by simp) (fun _ _ => rfl)
    obtain ⟨evs, g1, g2, g3⟩ := historicalLoop_trace api now from_ to_ dates [] w
    refine ⟨dates, _, evs, hd, hb, by rw [hq], ?_, by rw [hq]; exact g1, g2, by omega⟩
    simp only [hl, List.nil_append]
    exact le_trans (resolvedRates_length api now from_ to_ w dates) hb
  · obtain ⟨n, hn, hr, _⟩ := GetDateRange_of_Parse "2024-01-01" "2024-12-31"
      (Date 2024 1 1) (Date 2024 12 31) (by decide) (by decide) (by decide)
    refine ⟨_, hr, ?_⟩
    have e1 : Date 2024 12 31 - Date 2024 1 1 = 365 * 86400000000000 := by decide
    have hD : Day = 86400000000000 := by decide
    rw [hD] at hn
    simp only [List.length_map, List.length_range]
    omega

/-- Witness for C16: at midnight of 2025-08-01, the range 2025-07-01 to 2025-07-03
from the empty cache. -/
theorem GetHistoricalRates_bound_witness :
    ∃ dates resp evs, GetDateRange "2025-07-01" "2025-07-03" = .ok dates ∧ dates.length ≤ 91 ∧
      (GetHistoricalRates (mockAPI ⟨"USD", "INR", 83.25, 0, "2025-07-01"⟩ [])
        (Date 2025 8 1) "USD" "INR" "2025-07-01" "2025-07-03" ⟨NewCacheRepository, []⟩).1
        = .ok resp ∧
      resp.Rates.length ≤ 91 ∧
      (GetHistoricalRates (mockAPI ⟨"USD", "INR", 83.25, 0, "2025-07-01"⟩ [])
        (Date 2025 8 1) "USD" "INR" "2025-07-01" "2025-07-03" ⟨NewCacheRepository, []⟩).2.trace
        = [] ++ evs ∧
      (evs.filter isCacheGet).length = dates.length ∧
      (evs.filter isApiCall).length ≤ 91 :=
  (GetHistoricalRates_bound (mockAPI ⟨"USD", "INR", 83.25, 0, "2025-07-01"⟩ [])
    (Date 2025 8 1) "USD" "INR" "2025-07-01" "2025-07-03" ⟨NewCacheRepository, []⟩
    (GetHistoricalRates_ok _ _ _ _ _ _ _ (by decide) (by decide) (by rfl) (by rfl)
      ⟨Date 2025 7 1, Date 2025 7 3, by decide, by decide, by decide⟩)).1

end ExchangeRateService
